import Mathlib

/-!
Verification of the casper-node consensus core and block proposer against its
natural-language specification.

The Rust sources embedded here are
`src/node/src/components/block_proposer.rs` and
`src/node/src/components/consensus/protocols/highway.rs`.
Hashes, validator ids, timestamps and weights are embedded as `Nat`;
machine-width arithmetic carries explicit `% 2^w` where overflow matters.
Maps (`HashMap`) are embedded as `Finmap`, sets (`HashSet`) as `Finset`,
except that the `pending` map of the proposer keeps insertion order and is
embedded as an association list.
-/

set_option maxHeartbeats 1000000
set_option maxRecDepth 8000

namespace BlockProposer

/-- Modelled from the spec: the deploy header (`DeployHeader`, outside src/)
carries a creation timestamp, a time-to-live, a gas price and dependencies;
per §3 a deploy is expired when its TTL has elapsed relative to the
current instant. -/
structure DeployHeader where
  timestamp : Nat
  ttl : Nat
  gas_price : Nat
  dependencies : List Nat
deriving DecidableEq, Repr

/-- Modelled from the spec: `header.expired(current_instant)` — the TTL has
elapsed relative to the current instant. -/
def DeployHeader.expired (h : DeployHeader) (current_instant : Nat) : Bool :=
  h.timestamp + h.ttl < current_instant

/-- The deploy configuration from the chainspec (`DeployConfig`), restricted
to the keys the proposer reads (§6 configuration keys). -/
structure DeployConfig where
  max_ttl : Nat
  max_dependencies : Nat
  block_max_transfer_count : Nat
  block_max_deploy_count : Nat
  max_block_size : Nat
  block_gas_limit : Nat
deriving DecidableEq, Repr

/-- Modelled from the spec: `header.is_valid(deploy_config, block_timestamp)`
(outside src/) — the header is valid at the block timestamp under the config:
within TTL bounds and dependency limits and not expired. The theorems about
`propose_proto_block` do not depend on the internals of this predicate. -/
def DeployHeader.is_valid (h : DeployHeader) (cfg : DeployConfig) (t : Nat) : Bool :=
  h.ttl ≤ cfg.max_ttl && h.dependencies.length ≤ cfg.max_dependencies && !h.expired t

/-- Modelled from the spec: a `DeployType` value carries the header, the
approximate size, the payment amount and the classification wasm/transfer (§3). -/
structure DeployType where
  isTransfer : Bool
  header : DeployHeader
  size : Nat
  payment_amount : Nat
deriving DecidableEq, Repr

def DeployType.is_transfer (d : DeployType) : Bool := d.isTransfer

def DeployType.is_wasm (d : DeployType) : Bool := !d.isTransfer

def DeployType.take_header (d : DeployType) : DeployHeader := d.header

/-- A queued `ProtoBlockRequest` (the responder is not modelled; only the
request data that determines queueing and the proposed block). -/
structure PBRequest where
  next_finalized : Nat
  current_instant : Nat
  past_deploys : List Nat
  random_bit : Bool
deriving DecidableEq, Repr

/-- `BlockProposerDeploySets` (declared in the `deploy_sets` module, outside
src/; fields are as described in §3 of the spec and as used by
`block_proposer.rs`). `pending` preserves insertion order (§5). -/
structure DeploySets where
  pending : List (Nat × DeployType)
  finalized_deploys : Finmap (fun _ : Nat => DeployHeader)
  finalization_queue : Finmap (fun _ : Nat => List Nat)
  next_finalized : Nat

/-- `BlockProposerReady`: the operational state of the proposer. -/
structure Ready where
  sets : DeploySets
  unhandled_finalized : Finset Nat
  deploy_config : DeployConfig
  request_queue : Finmap (fun _ : Nat => List PBRequest)

/-- Insertion into the ordered `pending` map: replace in place if the key is
present, append otherwise. -/
def pendingInsert (hash : Nat) (dt : DeployType) :
    List (Nat × DeployType) → List (Nat × DeployType)
  | [] => [(hash, dt)]
  | (h, d) :: rest =>
    if h = hash then (hash, dt) :: rest else (h, d) :: pendingInsert hash dt rest

/-- Lookup in the ordered `pending` map. -/
def pendingLookup (hash : Nat) : List (Nat × DeployType) → Option DeployType
  | [] => none
  | (h, d) :: rest => if h = hash then some d else pendingLookup hash rest

/-- Removal from the ordered `pending` map (removes the first entry with the
given key, as `HashMap::remove`). -/
def pendingErase (hash : Nat) : List (Nat × DeployType) → List (Nat × DeployType)
  | [] => []
  | (h, d) :: rest => if h = hash then rest else (h, d) :: pendingErase hash rest

/-- `BlockProposerReady::add_deploy_or_transfer` (block_proposer.rs:304-330):
reject expired deploys; a deploy previously marked finalized-but-unseen gets
its header stored and is removed from `unhandled_finalized`; a deploy already
finalized is rejected; otherwise it is added to `pending`. -/
def add_deploy_or_transfer (current_instant : Nat) (hash : Nat)
    (deploy_or_transfer : DeployType) (s : Ready) : Ready :=
  if deploy_or_transfer.header.expired current_instant then s
  else if hash ∈ s.unhandled_finalized then
    { s with
      unhandled_finalized := s.unhandled_finalized.erase hash
      sets := { s.sets with
        finalized_deploys :=
          s.sets.finalized_deploys.insert hash deploy_or_transfer.take_header } }
  else if (s.sets.finalized_deploys.lookup hash).isSome then s
  else
    { s with sets := { s.sets with pending := pendingInsert hash deploy_or_transfer s.sets.pending } }

/-- One step of `BlockProposerReady::finalized_deploys` (block_proposer.rs:333-350):
move one deploy hash from `pending` to `finalized_deploys`, or record it in
`unhandled_finalized` if it was never seen. -/
def moveOne (s : Ready) (deploy_hash : Nat) : Ready :=
  match pendingLookup deploy_hash s.sets.pending with
  | some deploy_type =>
    { s with sets := { s.sets with
        pending := pendingErase deploy_hash s.sets.pending
        finalized_deploys :=
          s.sets.finalized_deploys.insert deploy_hash deploy_type.take_header } }
  | none =>
    { s with unhandled_finalized := insert deploy_hash s.unhandled_finalized }

/-- `BlockProposerReady::finalized_deploys` over a whole block's deploy list. -/
def moveAll (s : Ready) (deploys : List Nat) : Ready :=
  deploys.foldl moveOne s

/-- `BlockProposerReady::handle_finalized_block` (block_proposer.rs:353-384),
state part: record the deploys as finalized, raise `next_finalized` to at
least `height + 1`, and flush (remove) the request-queue entry keyed by the
new `next_finalized`. -/
def handle_finalized_block (s : Ready) (height : Nat) (deploys : List Nat) : Ready :=
  let s1 := moveAll s deploys
  let nf := max s1.sets.next_finalized (height + 1)
  { s1 with
    sets := { s1.sets with next_finalized := nf }
    request_queue := s1.request_queue.erase nf }

/-- The drain loop of the `FinalizedProtoBlock` arm
(block_proposer.rs:286-294): while the finalization queue holds an entry at
the current height, remove it, advance the height and apply it. The fuel is
an upper bound on the number of iterations; each successful iteration erases
one present key. -/
def drainLoop : Nat → Ready → Nat → Ready
  | 0, s, _ => s
  | fuel + 1, s, height =>
    match s.sets.finalization_queue.lookup height with
    | none => s
    | some deploys =>
      drainLoop fuel
        (handle_finalized_block
          { s with sets := { s.sets with
              finalization_queue := s.sets.finalization_queue.erase height } }
          (height + 1) deploys)
        (height + 1)

/-- Events handled by a `Ready` proposer (event.rs is outside src/; the
variants and their payloads are those consumed by
`BlockProposerReady::handle_event`, with a finalized proto block carried as
its deploy and transfer hash lists). -/
inductive Event where
  | request (r : PBRequest)
  | bufferDeploy (hash : Nat) (deploy_type : DeployType)
  | prune
  | loaded
  | finalizedProtoBlock (deploys : List Nat) (transfers : List Nat) (height : Nat)
deriving DecidableEq, Repr

/-- Modelled from the spec: `BlockProposerDeploySets::prune` (deploy_sets.rs,
outside src/) removes expired entries from the sets (§3 invariant, §4.7
`Prune`). -/
def pruneSets (current_instant : Nat) (s : Ready) : Ready :=
  { s with sets := { s.sets with
      pending := s.sets.pending.filter (fun p => !p.2.header.expired current_instant) } }

/-- `BlockProposerReady::handle_event` (block_proposer.rs:217-299), state
part. The ambient `now` stands for `Timestamp::now()`. Responding to a
request does not change the state (`propose_proto_block` only reads it). -/
def handle_event (now : Nat) (s : Ready) : Event → Ready
  | .request r =>
    if r.next_finalized > s.sets.next_finalized then
      let entry := (s.request_queue.lookup r.next_finalized).getD [] ++ [r]
      { s with request_queue := s.request_queue.insert r.next_finalized entry }
    else s
  | .bufferDeploy hash deploy_type => add_deploy_or_transfer now hash deploy_type s
  | .prune => pruneSets now s
  | .loaded => s
  | .finalizedProtoBlock deploys transfers height =>
    let allDeploys := deploys ++ transfers
    if height > s.sets.next_finalized then
      { s with sets := { s.sets with
          finalization_queue :=
            s.sets.finalization_queue.insert (height - 1) allDeploys } }
    else
      drainLoop s.sets.finalization_queue.keys.card
        (handle_finalized_block s height allDeploys) height

/-- Experimental deploy size floor used for the early break
(block_proposer.rs:54). -/
def DEPLOY_APPROX_MIN_SIZE : Nat := 300

/-- `BlockProposerReady::contains_finalized` (block_proposer.rs:485-487). -/
def contains_finalized (s : Ready) (dep : Nat) : Bool :=
  (s.sets.finalized_deploys.lookup dep).isSome || dep ∈ s.unhandled_finalized

/-- `BlockProposerReady::is_deploy_valid` (block_proposer.rs:387-401). -/
def is_deploy_valid (s : Ready) (header : DeployHeader) (block_timestamp : Nat)
    (deploy_config : DeployConfig) (past_deploys : List Nat) : Bool :=
  header.is_valid deploy_config block_timestamp &&
    header.dependencies.all (fun dep => past_deploys.contains dep || contains_finalized s dep)

/-- Modelled from the spec: `Gas::from_motes(motes, gas_price)`
(casper_execution_engine, outside src/) — checked division of motes by the
gas price; `none` on conversion failure (§7 ConversionOverflow). -/
def gasFromMotes (motes gas_price : Nat) : Option Nat :=
  if gas_price = 0 then none else some (motes / gas_price)

/-- Modelled from the spec: `Gas::checked_add` on the 512-bit gas counter
(outside src/) — `none` when the sum leaves 512 bits. -/
def gasCheckedAdd (a b : Nat) : Option Nat :=
  if a + b < 2 ^ 512 then some (a + b) else none

/-- The selection loop of `BlockProposerReady::propose_proto_block`
(block_proposer.rs:421-475), iterating over `pending` in order with the
running accumulators. Returns `(transfers, wasm_deploys)`. -/
def proposeList (s : Ready) (deploy_config : DeployConfig) (block_timestamp : Nat)
    (past_deploys : List Nat) :
    List (Nat × DeployType) → List Nat → List Nat → Nat → Nat → List Nat × List Nat
  | [], transfers, wasm_deploys, _, _ => (transfers, wasm_deploys)
  | (hash, deploy_type) :: rest, transfers, wasm_deploys,
      block_gas_running_total, block_size_running_total =>
    let at_max_transfers := transfers.length = deploy_config.block_max_transfer_count
    let at_max_deploys := wasm_deploys.length = deploy_config.block_max_deploy_count ∨
      (deploy_type.is_wasm ∧
        block_size_running_total + DEPLOY_APPROX_MIN_SIZE ≥ deploy_config.max_block_size)
    if at_max_deploys ∧ at_max_transfers then (transfers, wasm_deploys)
    else if ¬(is_deploy_valid s deploy_type.header block_timestamp deploy_config past_deploys)
        ∨ past_deploys.contains hash
        ∨ (s.sets.finalized_deploys.lookup hash).isSome then
      proposeList s deploy_config block_timestamp past_deploys rest
        transfers wasm_deploys block_gas_running_total block_size_running_total
    else if deploy_type.is_transfer ∧ ¬at_max_transfers then
      proposeList s deploy_config block_timestamp past_deploys rest
        (transfers ++ [hash]) wasm_deploys block_gas_running_total block_size_running_total
    else if deploy_type.is_wasm ∧ ¬at_max_deploys then
      if block_size_running_total + deploy_type.size > deploy_config.max_block_size then
        proposeList s deploy_config block_timestamp past_deploys rest
          transfers wasm_deploys block_gas_running_total block_size_running_total
      else
        match gasFromMotes deploy_type.payment_amount deploy_type.header.gas_price with
        | none =>
          proposeList s deploy_config block_timestamp past_deploys rest
            transfers wasm_deploys block_gas_running_total block_size_running_total
        | some payment_amount_gas =>
          match gasCheckedAdd block_gas_running_total payment_amount_gas with
          | none =>
            proposeList s deploy_config block_timestamp past_deploys rest
              transfers wasm_deploys block_gas_running_total block_size_running_total
          | some gas_running_total =>
            if gas_running_total > deploy_config.block_gas_limit then
              proposeList s deploy_config block_timestamp past_deploys rest
                transfers wasm_deploys block_gas_running_total block_size_running_total
            else
              proposeList s deploy_config block_timestamp past_deploys rest
                transfers (wasm_deploys ++ [hash]) gas_running_total
                (block_size_running_total + deploy_type.size)
    else
      proposeList s deploy_config block_timestamp past_deploys rest
        transfers wasm_deploys block_gas_running_total block_size_running_total

/-- A proposed proto block (`ProtoBlock::new(wasm_deploys, transfers, ts,
random_bit)`). -/
structure ProtoBlock where
  wasm_deploys : List Nat
  transfers : List Nat
  timestamp : Nat
  random_bit : Bool
deriving DecidableEq, Repr

/-- `BlockProposerReady::propose_proto_block` (block_proposer.rs:404-478). -/
def propose_proto_block (s : Ready) (deploy_config : DeployConfig)
    (block_timestamp : Nat) (past_deploys : List Nat) (random_bit : Bool) : ProtoBlock :=
  let r := proposeList s deploy_config block_timestamp past_deploys s.sets.pending [] [] 0 0
  { wasm_deploys := r.2, transfers := r.1, timestamp := block_timestamp, random_bit := random_bit }

end BlockProposer

namespace Highway

/-- An observation in a panorama: `None`, `Correct(unit-hash)` or `Faulty`
(highway_core::state::Observation, outside src/; §3 of the spec). -/
inductive Observation where
  | nothing
  | correct (hash : Nat)
  | faulty
deriving DecidableEq, Repr

/-- A dependency: unit hash, evidence against a validator index, or an
endorsement (§3). Only the first two are produced by the handlers embedded
here. -/
inductive Dependency where
  | unit (hash : Nat)
  | evidence (vid : Nat)
deriving DecidableEq, Repr

/-- A vertex as it appears in the messages produced by the latest-state
handler: a (wire) unit or evidence. -/
inductive Vertex where
  | unit (wire : Nat)
  | evidence (ev : Nat)
deriving DecidableEq, Repr

/-- `HighwayMessage` (highway.rs:460-464). -/
inductive HighwayMessage where
  | newVertex (v : Vertex)
  | requestDependency (dep : Dependency)
  | latestStateRequest (panorama : List Observation)
deriving DecidableEq, Repr

/-- Timer identifiers (highway.rs:49-57). -/
def TIMER_ID_ACTIVE_VALIDATOR : Nat := 0
def TIMER_ID_VERTEX_WITH_FUTURE_TIMESTAMP : Nat := 1
def TIMER_ID_PURGE_VERTICES : Nat := 2
def TIMER_ID_LOG_PARTICIPATION : Nat := 3
def TIMER_ID_STANDSTILL_ALERT : Nat := 4

/-- The protocol outcomes produced by the embedded handlers (§6). -/
inductive ProtocolOutcome where
  | createdGossipMessage (msg : HighwayMessage)
  | createdTargetedMessage (msg : HighwayMessage) (peer : Nat)
  | scheduleTimer (timestamp : Nat) (timer_id : Nat)
  | finalizedBlock (value : Nat)
  | fttExceeded
  | sendEvidence (peer : Nat) (vid : Nat)
deriving DecidableEq, Repr

/-- The Highway configuration keys read by the embedded handlers
(config.rs, outside src/; §6 configuration keys). -/
structure HighwayConfig where
  pending_vertex_timeout : Nat
  log_participation_interval : Nat
  standstill_timeout : Nat
deriving DecidableEq, Repr

/-- `HighwayProtocol::initialize_timers` (highway.rs:205-224): the purge
timer is scheduled at `now + pending_vertex_timeout`; the participation-log
and standstill timers at `max(now, era_start_time)` plus their intervals. -/
def initialize_timers (now era_start_time : Nat) (highway_config : HighwayConfig) :
    List ProtocolOutcome :=
  [ .scheduleTimer (now + highway_config.pending_vertex_timeout) TIMER_ID_PURGE_VERTICES,
    .scheduleTimer (max now era_start_time + highway_config.log_participation_interval)
      TIMER_ID_LOG_PARTICIPATION,
    .scheduleTimer (max now era_start_time + highway_config.standstill_timeout)
      TIMER_ID_STANDSTILL_ALERT ]

/-- The initialization outcomes of `HighwayProtocol::new_boxed`
(highway.rs:159-170): the three timers followed by a gossiped
`LatestStateRequest` carrying `Panorama::new(validators.len())`, the
all-`None` panorama. -/
def new_boxed_outcomes (now era_start_time : Nat) (highway_config : HighwayConfig)
    (num_validators : Nat) : List ProtocolOutcome :=
  initialize_timers now era_start_time highway_config ++
    [ .createdGossipMessage
        (.latestStateRequest (List.replicate num_validators Observation.nothing)) ]

/-- `u64::MAX`. -/
def u64MAX : Nat := 2 ^ 64 - 1

/-- The stake scaling factor of `HighwayProtocol::new_boxed`
(highway.rs:100-107): `(sum_stakes + u64::MAX - 1) / u64::MAX` in `U512`
arithmetic. -/
def scaling_factor (sum_stakes : Nat) : Nat := (sum_stakes + u64MAX - 1) / u64MAX

/-- `scale_stake` (highway.rs:108-110): `stake / scaling_factor`, truncated
to `u64` by the `AsPrimitive` cast. -/
def scale_stake (sum_stakes stake : Nat) : Nat := stake / scaling_factor sum_stakes % 2 ^ 64

/-- The fault-tolerance threshold of `HighwayProtocol::new_boxed`
(highway.rs:120-124): `u128` arithmetic
`total_weight * numer / denom`, truncated back to `u64`. -/
def ftt_value (total_weight numer denom : Nat) : Nat :=
  total_weight * numer % 2 ^ 128 / denom % 2 ^ 64

/-- Modelled from the spec: `FinalityDetector::run` (highway_core, outside
src/) — per §4.3 and §8 invariant 6 it reports `FttExceeded(faulty_weight)`
exactly when the cumulative faulty weight exceeds the threshold, and
otherwise yields the newly finalized values in order. -/
def finality_run (faulty_weight ftt : Nat) (newly_finalized : List Nat) :
    Except Nat (List Nat) :=
  if faulty_weight > ftt then .error faulty_weight else .ok newly_finalized

/-- `HighwayProtocol::detect_finality` (highway.rs:282-294): on `Ok`, map the
iterator to `FinalizedBlock` outcomes; on `FttExceeded`, log participation
and return the single `FttExceeded` outcome. The `Bool` component records
whether `log_participation` was invoked. -/
def detect_finality (faulty_weight ftt : Nat) (newly_finalized : List Nat) :
    Bool × List ProtocolOutcome :=
  match finality_run faulty_weight ftt newly_finalized with
  | .ok iter => (false, iter.map ProtocolOutcome.finalizedBlock)
  | .error _ => (true, [.fttExceeded])

/-- The read access to the protocol state used by the `LatestStateRequest`
handler. Modelled from the spec: `highway_core::state::State` is outside
src/; the handler only consults these lookups (§4.2). `wire_unit` and
`maybe_evidence` return `none` when unknown. -/
structure StateView where
  has_unit : Nat → Bool
  sees_correct : Nat → Bool
  wire_unit : Nat → Option Nat
  maybe_evidence : Nat → Option Nat

/-- The `create_message` closure of the `LatestStateRequest` arm of
`HighwayProtocol::handle_message` (highway.rs:572-613): compare our
observation (`obs0`) for validator `vid` with theirs (`obs1`). -/
def create_message (state : StateView) (vid : Nat)
    (obs0 obs1 : Observation) : Option HighwayMessage :=
  if obs0 = obs1 then none
  else
    match obs0, obs1 with
    | .nothing, .nothing => none
    | .faulty, _ => (state.maybe_evidence vid).map (fun evidence =>
        HighwayMessage.newVertex (Vertex.evidence evidence))
    | _, .faulty => some (.requestDependency (.evidence vid))
    | .nothing, .correct hash => some (.requestDependency (.unit hash))
    | .correct hash, .nothing => (state.wire_unit hash).map (fun swu =>
        HighwayMessage.newVertex (Vertex.unit swu))
    | .correct our_hash, .correct their_hash =>
      if state.has_unit their_hash ∧ state.sees_correct their_hash then
        (state.wire_unit our_hash).map (fun swu =>
          HighwayMessage.newVertex (Vertex.unit swu))
      else if ¬state.has_unit their_hash then
        some (.requestDependency (.unit their_hash))
      else none

/-- The replies produced for a `LatestStateRequest(panorama)`
(highway.rs:615-623): one optional message per validator index, from zipping
our panorama with theirs. -/
def latest_state_replies (state : StateView) (our_panorama their_panorama : List Observation) :
    List HighwayMessage :=
  ((our_panorama.zip their_panorama).enum.map
    (fun p => create_message state p.1 p.2.1 p.2.2)).reduceOption

/-- What the `NewVertex` arm of `HighwayProtocol::handle_message` does with a
pre-validated vertex (highway.rs:518-549). -/
inductive VertexDisposition where
  /-- Dropped silently: from a faulty creator and not needed as a dependency. -/
  | dropFaulty
  /-- Dropped: timestamp beyond `now + pending_vertex_timeout`. -/
  | dropFuture
  /-- Stored for later; a release timer is scheduled at the returned time. -/
  | storeForLater (release : Nat)
  /-- Enqueued via the synchronizer. -/
  | enqueue
deriving DecidableEq, Repr

/-- The decision taken on a pre-validated `NewVertex` (highway.rs:518-549):
`is_faulty` is `state.is_faulty(creator)`, `is_dep` is
`synchronizer.is_dependency(id)`, `timestamp` is `pvv.timestamp()`. -/
def new_vertex_disposition (is_faulty is_dep : Bool) (timestamp : Option Nat)
    (now pending_vertex_timeout : Nat) : VertexDisposition :=
  if is_faulty && !is_dep then .dropFaulty
  else
    match timestamp with
    | some ts =>
      if ts > now + pending_vertex_timeout then .dropFuture
      else if ts > now then .storeForLater ts
      else .enqueue
    | none => .enqueue

/-- The outcomes of the timestamp gate: storing schedules the release timer
`ScheduleTimer(timestamp, TIMER_ID_VERTEX_WITH_FUTURE_TIMESTAMP)`
(highway.rs:540-541). -/
def disposition_outcomes : VertexDisposition → List ProtocolOutcome
  | .dropFaulty => []
  | .dropFuture => []
  | .storeForLater release =>
      [.scheduleTimer release TIMER_ID_VERTEX_WITH_FUTURE_TIMESTAMP]
  | .enqueue => []

end Highway

namespace BlockProposer

/-- The projection of a `Ready` state onto the fields observed by claim C1:
`pending`, `finalized_deploys`, `finalization_queue`,
`unhandled_finalized` and `next_finalized`. The request queue (whose content
never feeds back into these fields during finalization handling) is
excluded. -/
structure CoreView where
  pending : List (Nat × DeployType)
  finalized : Finmap (fun _ : Nat => DeployHeader)
  fqueue : Finmap (fun _ : Nat => List Nat)
  unhandled : Finset Nat
  nf : Nat
deriving DecidableEq

def coreOf (s : Ready) : CoreView :=
  { pending := s.sets.pending
    finalized := s.sets.finalized_deploys
    fqueue := s.sets.finalization_queue
    unhandled := s.unhandled_finalized
    nf := s.sets.next_finalized }

/-- `moveOne` on the core view. -/
def coreMoveOne (c : CoreView) (deploy_hash : Nat) : CoreView :=
  match pendingLookup deploy_hash c.pending with
  | some deploy_type =>
    { c with
      pending := pendingErase deploy_hash c.pending
      finalized := c.finalized.insert deploy_hash deploy_type.take_header }
  | none => { c with unhandled := insert deploy_hash c.unhandled }

/-- `moveAll` on the core view. -/
def coreMoveAll (c : CoreView) (deploys : List Nat) : CoreView :=
  deploys.foldl coreMoveOne c

/-- `handle_finalized_block` on the core view. -/
def coreApply (c : CoreView) (height : Nat) (deploys : List Nat) : CoreView :=
  let c1 := coreMoveAll c deploys
  { c1 with nf := max c1.nf (height + 1) }

/-- The drain loop on the core view. -/
def coreDrain : Nat → CoreView → Nat → CoreView
  | 0, c, _ => c
  | fuel + 1, c, height =>
    match c.fqueue.lookup height with
    | none => c
    | some deploys =>
      coreDrain fuel
        (coreApply { c with fqueue := c.fqueue.erase height } (height + 1) deploys)
        (height + 1)

/-- A `FinalizedProtoBlock{deploys, transfers, height}` event on the core
view. -/
def coreDeliver (c : CoreView) (p : Nat × List Nat × List Nat) : CoreView :=
  let allDeploys := p.2.1 ++ p.2.2
  if p.1 > c.nf then { c with fqueue := c.fqueue.insert (p.1 - 1) allDeploys }
  else coreDrain c.fqueue.keys.card (coreApply c p.1 allDeploys) p.1

/-- Delivering a sequence of `FinalizedProtoBlock` events to a Ready
proposer. -/
def deliverSeq (now : Nat) (s : Ready) (l : List (Nat × List Nat × List Nat)) : Ready :=
  l.foldl (fun t p => handle_event now t (.finalizedProtoBlock p.2.1 p.2.2 p.1)) s

/-- Delivering a sequence of finalizations on the core view. -/
def coreDeliverSeq (c : CoreView) (l : List (Nat × List Nat × List Nat)) : CoreView :=
  l.foldl coreDeliver c

/-- The finalizations of the consecutive heights `h, h+1, ..., h+k`, in
increasing height order, with `d i` the deploys and transfers of height
`h + i`. -/
def bandList (h k : Nat) (d : Nat → List Nat × List Nat) :
    List (Nat × List Nat × List Nat) :=
  (List.range (k + 1)).map (fun i => (h + i, d i))

theorem coreOf_moveOne (s : Ready) (h : Nat) :
    coreOf (moveOne s h) = coreMoveOne (coreOf s) h := by
  unfold moveOne coreMoveOne
  rcases hp : pendingLookup h s.sets.pending with _ | dt <;>
    simp only [coreOf, hp] <;> rfl

theorem coreOf_moveAll (deploys : List Nat) :
    ∀ s : Ready, coreOf (moveAll s deploys) = coreMoveAll (coreOf s) deploys := by
  induction deploys with
  | nil => intro s; rfl
  | cons d rest ih =>
    intro s
    show coreOf (moveAll (moveOne s d) rest) = coreMoveAll (coreMoveOne (coreOf s) d) rest
    rw [ih (moveOne s d), coreOf_moveOne]

theorem coreOf_handle_finalized_block (s : Ready) (height : Nat) (deploys : List Nat) :
    coreOf (handle_finalized_block s height deploys) =
      coreApply (coreOf s) height deploys := by
  have h1 := coreOf_moveAll deploys s
  unfold handle_finalized_block coreApply
  have hp : (moveAll s deploys).sets.pending = (coreMoveAll (coreOf s) deploys).pending :=
    congrArg CoreView.pending h1
  have hf : (moveAll s deploys).sets.finalized_deploys =
      (coreMoveAll (coreOf s) deploys).finalized := congrArg CoreView.finalized h1
  have hq : (moveAll s deploys).sets.finalization_queue =
      (coreMoveAll (coreOf s) deploys).fqueue := congrArg CoreView.fqueue h1
  have hu : (moveAll s deploys).unhandled_finalized =
      (coreMoveAll (coreOf s) deploys).unhandled := congrArg CoreView.unhandled h1
  have hn : (moveAll s deploys).sets.next_finalized =
      (coreMoveAll (coreOf s) deploys).nf := congrArg CoreView.nf h1
  simp only [coreOf, hp, hf, hq, hu, hn]

theorem coreOf_drainLoop (fuel : Nat) :
    ∀ (s : Ready) (height : Nat),
      coreOf (drainLoop fuel s height) = coreDrain fuel (coreOf s) height := by
  induction fuel with
  | zero => intro s height; rfl
  | succ fuel ih =>
    intro s height
    unfold drainLoop coreDrain
    rcases hq : s.sets.finalization_queue.lookup height with _ | deploys
    · rw [show (coreOf s).fqueue.lookup height = none from hq]
    · rw [show (coreOf s).fqueue.lookup height = some deploys from hq]
      dsimp only
      rw [ih, coreOf_handle_finalized_block]
      rfl

theorem coreOf_handle_event_fin (now : Nat) (s : Ready)
    (ds ts : List Nat) (height : Nat) :
    coreOf (handle_event now s (.finalizedProtoBlock ds ts height)) =
      coreDeliver (coreOf s) (height, ds, ts) := by
  simp only [handle_event]
  unfold coreDeliver
  by_cases hgt : height > s.sets.next_finalized
  · rw [if_pos hgt, if_pos (show (height, ds, ts).1 > (coreOf s).nf from hgt)]
    rfl
  · rw [if_neg hgt, if_neg (show ¬(height, ds, ts).1 > (coreOf s).nf from hgt)]
    dsimp only
    rw [coreOf_drainLoop, coreOf_handle_finalized_block]
    rfl

theorem coreOf_deliverSeq (now : Nat) :
    ∀ (l : List (Nat × List Nat × List Nat)) (s : Ready),
      coreOf (deliverSeq now s l) = coreDeliverSeq (coreOf s) l := by
  intro l
  induction l with
  | nil => intro s; rfl
  | cons p rest ih =>
    intro s
    show coreOf (deliverSeq now (handle_event now s
      (.finalizedProtoBlock p.2.1 p.2.2 p.1)) rest) =
      coreDeliverSeq (coreDeliver (coreOf s) p) rest
    rw [ih, coreOf_handle_event_fin]

theorem pendingLookup_cons (d k : Nat) (v : DeployType) (rest : List (Nat × DeployType)) :
    pendingLookup d ((k, v) :: rest) =
      if k = d then some v else pendingLookup d rest := rfl

theorem pendingErase_cons (d k : Nat) (v : DeployType) (rest : List (Nat × DeployType)) :
    pendingErase d ((k, v) :: rest) =
      if k = d then rest else (k, v) :: pendingErase d rest := rfl

theorem pendingLookup_erase_ne (d1 d2 : Nat) (hne : d1 ≠ d2) :
    ∀ l : List (Nat × DeployType),
      pendingLookup d2 (pendingErase d1 l) = pendingLookup d2 l := by
  intro l
  induction l with
  | nil => rfl
  | cons hd rest ih =>
    obtain ⟨k, v⟩ := hd
    rw [pendingErase_cons]
    by_cases hk1 : k = d1
    · rw [if_pos hk1, pendingLookup_cons, if_neg (by omega)]
    · rw [if_neg hk1, pendingLookup_cons, pendingLookup_cons]
      by_cases hk2 : k = d2
      · rw [if_pos hk2, if_pos hk2]
      · rw [if_neg hk2, if_neg hk2, ih]

theorem pendingErase_comm (d1 d2 : Nat) :
    ∀ l : List (Nat × DeployType),
      pendingErase d1 (pendingErase d2 l) = pendingErase d2 (pendingErase d1 l) := by
  intro l
  by_cases hd : d1 = d2
  · subst hd; rfl
  · induction l with
    | nil => rfl
    | cons hd' rest ih =>
      obtain ⟨k, v⟩ := hd'
      rw [pendingErase_cons d2 k v rest, pendingErase_cons d1 k v rest]
      by_cases hk1 : k = d1 <;> by_cases hk2 : k = d2
      · exfalso; omega
      · rw [if_neg hk2, if_pos hk1,
          pendingErase_cons d1 k v (pendingErase d2 rest), if_pos hk1]
      · rw [if_pos hk2, if_neg hk1,
          pendingErase_cons d2 k v (pendingErase d1 rest), if_pos hk2]
      · rw [if_neg hk2, if_neg hk1,
          pendingErase_cons d1 k v (pendingErase d2 rest), if_neg hk1,
          pendingErase_cons d2 k v (pendingErase d1 rest), if_neg hk2, ih]

theorem coreMoveOne_comm (c : CoreView) (d1 d2 : Nat) :
    coreMoveOne (coreMoveOne c d1) d2 = coreMoveOne (coreMoveOne c d2) d1 := by
  by_cases hd : d1 = d2
  · subst hd; rfl
  · have hd' : d2 ≠ d1 := fun h => hd h.symm
    rcases h1 : pendingLookup d1 c.pending with _ | t1 <;>
      rcases h2 : pendingLookup d2 c.pending with _ | t2
    · have e1 : coreMoveOne c d1 = { c with unhandled := insert d1 c.unhandled } := by
        unfold coreMoveOne; rw [h1]
      have e2 : coreMoveOne c d2 = { c with unhandled := insert d2 c.unhandled } := by
        unfold coreMoveOne; rw [h2]
      rw [e1, e2]
      unfold coreMoveOne
      dsimp only
      rw [h1, h2]
      dsimp only
      rw [Finset.Insert.comm]
    · have e1 : coreMoveOne c d1 = { c with unhandled := insert d1 c.unhandled } := by
        unfold coreMoveOne; rw [h1]
      have e2 : coreMoveOne c d2 = { c with
          pending := pendingErase d2 c.pending
          finalized := c.finalized.insert d2 t2.take_header } := by
        unfold coreMoveOne; rw [h2]
      rw [e1, e2]
      unfold coreMoveOne
      dsimp only
      rw [h2, pendingLookup_erase_ne d2 d1 hd' c.pending, h1]
    · have e1 : coreMoveOne c d1 = { c with
          pending := pendingErase d1 c.pending
          finalized := c.finalized.insert d1 t1.take_header } := by
        unfold coreMoveOne; rw [h1]
      have e2 : coreMoveOne c d2 = { c with unhandled := insert d2 c.unhandled } := by
        unfold coreMoveOne; rw [h2]
      rw [e1, e2]
      unfold coreMoveOne
      dsimp only
      rw [pendingLookup_erase_ne d1 d2 hd c.pending, h2, h1]
    · have e1 : coreMoveOne c d1 = { c with
          pending := pendingErase d1 c.pending
          finalized := c.finalized.insert d1 t1.take_header } := by
        unfold coreMoveOne; rw [h1]
      have e2 : coreMoveOne c d2 = { c with
          pending := pendingErase d2 c.pending
          finalized := c.finalized.insert d2 t2.take_header } := by
        unfold coreMoveOne; rw [h2]
      rw [e1, e2]
      unfold coreMoveOne
      dsimp only
      rw [pendingLookup_erase_ne d1 d2 hd c.pending, h2,
        pendingLookup_erase_ne d2 d1 hd' c.pending, h1]
      dsimp only
      rw [pendingErase_comm d2 d1 c.pending, Finmap.insert_insert_of_ne _ hd']

theorem coreMoveOne_nf_fq (c : CoreView) (d : Nat) :
    (coreMoveOne c d).nf = c.nf ∧ (coreMoveOne c d).fqueue = c.fqueue := by
  unfold coreMoveOne
  rcases pendingLookup d c.pending with _ | t <;> exact ⟨rfl, rfl⟩

theorem coreMoveAll_nf_fq (deploys : List Nat) :
    ∀ c : CoreView,
      (coreMoveAll c deploys).nf = c.nf ∧ (coreMoveAll c deploys).fqueue = c.fqueue := by
  induction deploys with
  | nil => intro c; exact ⟨rfl, rfl⟩
  | cons d rest ih =>
    intro c
    obtain ⟨h1, h2⟩ := coreMoveOne_nf_fq c d
    obtain ⟨h3, h4⟩ := ih (coreMoveOne c d)
    exact ⟨h3.trans h1, h4.trans h2⟩

theorem coreMoveOne_set_nf (c : CoreView) (d : Nat) (n : Nat) :
    coreMoveOne { c with nf := n } d = { coreMoveOne c d with nf := n } := by
  unfold coreMoveOne
  dsimp only
  rcases pendingLookup d c.pending with _ | t <;> rfl

theorem coreMoveAll_set_nf (deploys : List Nat) :
    ∀ (c : CoreView) (n : Nat),
      coreMoveAll { c with nf := n } deploys = { coreMoveAll c deploys with nf := n } := by
  induction deploys with
  | nil => intro c n; rfl
  | cons d rest ih =>
    intro c n
    show coreMoveAll (coreMoveOne { c with nf := n } d) rest =
      { coreMoveAll (coreMoveOne c d) rest with nf := n }
    rw [coreMoveOne_set_nf, ih]

theorem coreMoveAll_comm (c : CoreView) (dx dy : List Nat) :
    coreMoveAll (coreMoveAll c dx) dy = coreMoveAll (coreMoveAll c dy) dx := by
  unfold coreMoveAll
  rw [← List.foldl_append, ← List.foldl_append]
  exact List.Perm.foldl_eq' (List.perm_append_comm)
    (fun a _ b _ z => coreMoveOne_comm z a b) c

theorem coreApply_eq (c : CoreView) (height : Nat) (deploys : List Nat) :
    coreApply c height deploys =
      { coreMoveAll c deploys with nf := max c.nf (height + 1) } := by
  unfold coreApply
  dsimp only
  rw [(coreMoveAll_nf_fq deploys c).1]

theorem coreApply_comm (c : CoreView) (x y : Nat) (dx dy : List Nat) :
    coreApply (coreApply c x dx) y dy = coreApply (coreApply c y dy) x dx := by
  rw [coreApply_eq c x dx, coreApply_eq c y dy,
    coreApply_eq { coreMoveAll c dx with nf := max c.nf (x + 1) } y dy,
    coreApply_eq { coreMoveAll c dy with nf := max c.nf (y + 1) } x dx]
  simp only [coreMoveAll_set_nf]
  rw [coreMoveAll_comm c dx dy]
  have hnf : max (max c.nf (x + 1)) (y + 1) = max (max c.nf (y + 1)) (x + 1) := by omega
  rw [hnf]

/-- Folding `coreApply` over a list of (height, deploys) applications. -/
def applyList (c : CoreView) (l : List (Nat × List Nat)) : CoreView :=
  l.foldl (fun c p => coreApply c p.1 p.2) c

theorem applyList_append (c : CoreView) (l1 l2 : List (Nat × List Nat)) :
    applyList c (l1 ++ l2) = applyList (applyList c l1) l2 :=
  List.foldl_append _ _ _ _

theorem applyList_perm (c : CoreView) {l1 l2 : List (Nat × List Nat)} (hp : l1.Perm l2) :
    applyList c l1 = applyList c l2 :=
  List.Perm.foldl_eq' hp (fun a _ b _ z => coreApply_comm z a.1 b.1 a.2 b.2) c

theorem coreApply_fq (c : CoreView) (height : Nat) (deploys : List Nat) :
    (coreApply c height deploys).fqueue = c.fqueue := by
  rw [coreApply_eq]
  exact (coreMoveAll_nf_fq deploys c).2

theorem applyList_fq (l : List (Nat × List Nat)) :
    ∀ c : CoreView, (applyList c l).fqueue = c.fqueue := by
  induction l with
  | nil => intro c; rfl
  | cons p rest ih =>
    intro c
    exact (ih (coreApply c p.1 p.2)).trans (coreApply_fq c p.1 p.2)

theorem coreMoveOne_set_fq (c : CoreView) (d : Nat)
    (Q : Finmap (fun _ : Nat => List Nat)) :
    coreMoveOne { c with fqueue := Q } d = { coreMoveOne c d with fqueue := Q } := by
  unfold coreMoveOne
  dsimp only
  rcases pendingLookup d c.pending with _ | t <;> rfl

theorem coreMoveAll_set_fq (deploys : List Nat) :
    ∀ (c : CoreView) (Q : Finmap (fun _ : Nat => List Nat)),
      coreMoveAll { c with fqueue := Q } deploys =
        { coreMoveAll c deploys with fqueue := Q } := by
  induction deploys with
  | nil => intro c Q; rfl
  | cons d rest ih =>
    intro c Q
    show coreMoveAll (coreMoveOne { c with fqueue := Q } d) rest =
      { coreMoveAll (coreMoveOne c d) rest with fqueue := Q }
    rw [coreMoveOne_set_fq, ih]

theorem coreApply_set_fq (c : CoreView) (height : Nat) (deploys : List Nat)
    (Q : Finmap (fun _ : Nat => List Nat)) :
    coreApply { c with fqueue := Q } height deploys =
      { coreApply c height deploys with fqueue := Q } := by
  rw [coreApply_eq, coreApply_eq, coreMoveAll_set_fq]

theorem applyList_set_fq (l : List (Nat × List Nat)) :
    ∀ (c : CoreView) (Q : Finmap (fun _ : Nat => List Nat)),
      applyList { c with fqueue := Q } l = { applyList c l with fqueue := Q } := by
  induction l with
  | nil => intro c Q; rfl
  | cons p rest ih =>
    intro c Q
    show applyList (coreApply { c with fqueue := Q } p.1 p.2) rest =
      { applyList (coreApply c p.1 p.2) rest with fqueue := Q }
    rw [coreApply_set_fq, ih]

/-- Erase the consecutive keys `h, h+1, ..., h+n-1` from a queue. -/
def eraseRun (q : Finmap (fun _ : Nat => List Nat)) (h : Nat) : Nat → Finmap (fun _ : Nat => List Nat)
  | 0 => q
  | n + 1 => eraseRun (q.erase h) (h + 1) n

theorem eraseRun_lookup :
    ∀ (n : Nat) (q : Finmap (fun _ : Nat => List Nat)) (h k : Nat),
      (eraseRun q h n).lookup k =
        if h ≤ k ∧ k < h + n then none else q.lookup k := by
  intro n
  induction n with
  | zero =>
    intro q h k
    rw [if_neg (by omega)]
    rfl
  | succ n ih =>
    intro q h k
    show (eraseRun (q.erase h) (h + 1) n).lookup k = _
    rw [ih]
    by_cases hk : k = h
    · subst hk
      rw [if_neg (by omega), if_pos (by omega)]
      exact Finmap.lookup_erase k q
    · by_cases hr : h + 1 ≤ k ∧ k < h + 1 + n
      · rw [if_pos hr, if_pos (by omega)]
      · rw [if_neg hr, if_neg (by omega)]
        exact Finmap.lookup_erase_ne hk

/-- A queue key absent from the map leaves it unchanged when erased. -/
theorem erase_absent (q : Finmap (fun _ : Nat => List Nat)) (j : Nat)
    (hj : q.lookup j = none) : q.erase j = q := by
  apply Finmap.ext_lookup
  intro k
  by_cases hk : k = j
  · subst hk
    rw [Finmap.lookup_erase, hj]
  · exact Finmap.lookup_erase_ne hk

/-- Inserting at one key and erasing another commute. -/
theorem insert_erase_comm (q : Finmap (fun _ : Nat => List Nat)) (j h : Nat)
    (v : List Nat) (hne : j ≠ h) :
    (q.insert j v).erase h = (q.erase h).insert j v := by
  apply Finmap.ext_lookup
  intro k
  by_cases hk : k = h
  · subst hk
    rw [Finmap.lookup_erase, Finmap.lookup_insert_of_ne _ (fun hh => hne hh.symm),
      Finmap.lookup_erase]
  · rw [Finmap.lookup_erase_ne hk]
    by_cases hkj : k = j
    · subst hkj
      rw [Finmap.lookup_insert, Finmap.lookup_insert]
    · rw [Finmap.lookup_insert_of_ne _ hkj, Finmap.lookup_insert_of_ne _ hkj,
        Finmap.lookup_erase_ne hk]

theorem mem_of_lookup_some {q : Finmap (fun _ : Nat => List Nat)} {h : Nat}
    {ds : List Nat} (hq : q.lookup h = some ds) : h ∈ q :=
  Finmap.mem_of_lookup_eq_some hq

theorem card_erase_of_lookup_some {q : Finmap (fun _ : Nat => List Nat)} {h : Nat}
    {ds : List Nat} (hq : q.lookup h = some ds) :
    (q.erase h).keys.card = q.keys.card - 1 := by
  rw [Finmap.keys_erase]
  exact Finset.card_erase_of_mem (Finmap.mem_keys.mpr (mem_of_lookup_some hq))

theorem card_pos_of_lookup_some {q : Finmap (fun _ : Nat => List Nat)} {h : Nat}
    {ds : List Nat} (hq : q.lookup h = some ds) : 0 < q.keys.card :=
  Finset.card_pos.mpr ⟨h, Finmap.mem_keys.mpr (mem_of_lookup_some hq)⟩

theorem lookup_none_of_card_zero {q : Finmap (fun _ : Nat => List Nat)} (h : Nat)
    (hc : q.keys.card = 0) : q.lookup h = none := by
  rw [Finmap.lookup_eq_none]
  intro hm
  have := Finset.card_pos.mpr ⟨h, Finmap.mem_keys.mpr hm⟩
  omega

/-- The consecutive run of queue entries consumed by a drain starting at
`height`: entry `i` is the block of height `height + 1 + i`, queued under
key `height + i`. -/
def chainApps : Nat → Finmap (fun _ : Nat => List Nat) → Nat → List (Nat × List Nat)
  | 0, _, _ => []
  | fuel + 1, q, height =>
    match q.lookup height with
    | none => []
    | some deploys => (height + 1, deploys) :: chainApps fuel (q.erase height) (height + 1)

theorem chainApps_succ (f : Nat) (q : Finmap (fun _ : Nat => List Nat)) (h : Nat) :
    chainApps (f + 1) q h =
      match q.lookup h with
      | none => []
      | some deploys => (h + 1, deploys) :: chainApps f (q.erase h) (h + 1) := rfl

theorem chainApps_fuel_irrel :
    ∀ (f1 f2 : Nat) (q : Finmap (fun _ : Nat => List Nat)) (h : Nat),
      q.keys.card ≤ f1 → q.keys.card ≤ f2 →
      chainApps f1 q h = chainApps f2 q h := by
  intro f1
  induction f1 with
  | zero =>
    intro f2 q h h1 _
    have hnone : q.lookup h = none := lookup_none_of_card_zero h (by omega)
    cases f2 with
    | zero => rfl
    | succ f2 =>
      show ([] : List (Nat × List Nat)) = chainApps (f2 + 1) q h
      unfold chainApps
      rw [hnone]
  | succ f1 ih =>
    intro f2 q h h1 h2
    rcases hq : q.lookup h with _ | ds
    · cases f2 with
      | zero => unfold chainApps; rw [hq]
      | succ f2 =>
        show chainApps (f1 + 1) q h = chainApps (f2 + 1) q h
        unfold chainApps
        rw [hq]
    · have hpos := card_pos_of_lookup_some hq
      have hcard := card_erase_of_lookup_some hq
      cases f2 with
      | zero => omega
      | succ f2 =>
        show chainApps (f1 + 1) q h = chainApps (f2 + 1) q h
        unfold chainApps
        rw [hq]
        dsimp only
        rw [ih f2 (q.erase h) (h + 1) (by omega) (by omega)]

theorem chainApps_stop :
    ∀ (f : Nat) (q : Finmap (fun _ : Nat => List Nat)) (h : Nat),
      q.keys.card ≤ f →
      q.lookup (h + (chainApps f q h).length) = none := by
  intro f
  induction f with
  | zero =>
    intro q h hc
    exact lookup_none_of_card_zero _ (by omega)
  | succ f ih =>
    intro q h hc
    rcases hq : q.lookup h with _ | ds
    · rw [chainApps_succ, hq]
      simpa using hq
    · have hcard := card_erase_of_lookup_some hq
      have hpos := card_pos_of_lookup_some hq
      rw [chainApps_succ, hq]
      dsimp only [List.length_cons]
      have := ih (q.erase h) (h + 1) (by omega)
      rw [Finmap.lookup_erase_ne (by omega : (h + 1) + (chainApps f (q.erase h) (h + 1)).length ≠ h)] at this
      rw [show h + ((chainApps f (q.erase h) (h + 1)).length + 1) =
        (h + 1) + (chainApps f (q.erase h) (h + 1)).length by omega]
      exact this

theorem chainApps_present :
    ∀ (f : Nat) (q : Finmap (fun _ : Nat => List Nat)) (h i : Nat),
      i < (chainApps f q h).length → (q.lookup (h + i)).isSome = true := by
  intro f
  induction f with
  | zero =>
    intro q h i hi
    simp only [chainApps, List.length_nil] at hi
    omega
  | succ f ih =>
    intro q h i hi
    rcases hq : q.lookup h with _ | ds
    · unfold chainApps at hi
      rw [hq] at hi
      simp at hi
    · unfold chainApps at hi
      rw [hq] at hi
      dsimp only [List.length_cons] at hi
      cases i with
      | zero => simp [hq]
      | succ i =>
        have := ih (q.erase h) (h + 1) i (by omega)
        rw [Finmap.lookup_erase_ne (by omega : (h + 1) + i ≠ h)] at this
        rw [show h + (i + 1) = (h + 1) + i by omega]
        exact this

theorem chainApps_congr :
    ∀ (f : Nat) (q1 q2 : Finmap (fun _ : Nat => List Nat)) (h : Nat),
      (∀ k, h ≤ k → q1.lookup k = q2.lookup k) →
      chainApps f q1 h = chainApps f q2 h := by
  intro f
  induction f with
  | zero => intro q1 q2 h _; rfl
  | succ f ih =>
    intro q1 q2 h hagree
    show chainApps (f + 1) q1 h = chainApps (f + 1) q2 h
    unfold chainApps
    rw [← hagree h (le_refl h)]
    rcases hq : q1.lookup h with _ | ds
    · rfl
    · dsimp only
      rw [ih (q1.erase h) (q2.erase h) (h + 1) (fun k hk => by
        rw [Finmap.lookup_erase_ne (by omega : k ≠ h),
          Finmap.lookup_erase_ne (by omega : k ≠ h)]
        exact hagree k (by omega))]

theorem insert_erase_same (q : Finmap (fun _ : Nat => List Nat)) (j : Nat) (v : List Nat) :
    (q.insert j v).erase j = q.erase j := by
  apply Finmap.ext_lookup
  intro k
  by_cases hk : k = j
  · subst hk
    rw [Finmap.lookup_erase, Finmap.lookup_erase]
  · rw [Finmap.lookup_erase_ne hk, Finmap.lookup_erase_ne hk,
      Finmap.lookup_insert_of_ne _ hk]

/-- Inserting a key strictly beyond the stop key of a drain chain leaves the
chain unchanged. -/
theorem chainApps_insert_high :
    ∀ (f : Nat) (q : Finmap (fun _ : Nat => List Nat)) (h j : Nat) (v : List Nat),
      q.lookup j = none → h + (chainApps f q h).length < j → q.keys.card + 1 ≤ f →
      chainApps f (q.insert j v) h = chainApps f q h := by
  intro f
  induction f with
  | zero =>
    intro q h j v _ _ hf
    omega
  | succ f ih =>
    intro q h j v hj hstop hf
    have hjh : j ≠ h := by omega
    rw [chainApps_succ, chainApps_succ,
      Finmap.lookup_insert_of_ne _ (fun hh => hjh hh.symm)]
    rcases hq : q.lookup h with _ | ds
    · rfl
    · have hcard := card_erase_of_lookup_some hq
      have hpos := card_pos_of_lookup_some hq
      have hlen : (chainApps (f + 1) q h).length =
          (chainApps f (q.erase h) (h + 1)).length + 1 := by
        rw [chainApps_succ, hq]
        rfl
      dsimp only
      rw [insert_erase_comm q j h v hjh,
        ih (q.erase h) (h + 1) j v ((Finmap.lookup_erase_ne hjh).trans hj)
          (by omega) (by omega)]

/-- Inserting exactly at the stop key of a drain chain extends the chain by
the inserted entry followed by the chain continuing above it. -/
theorem chainApps_insert_stop :
    ∀ (f : Nat) (q : Finmap (fun _ : Nat => List Nat)) (h j : Nat) (v : List Nat),
      q.lookup j = none → j = h + (chainApps f q h).length → q.keys.card + 2 ≤ f →
      chainApps f (q.insert j v) h =
        chainApps f q h ++ (j + 1, v) :: chainApps f q (j + 1) := by
  intro f
  induction f with
  | zero =>
    intro q h j v _ _ hf
    omega
  | succ f ih =>
    intro q h j v hj hstop hf
    rcases hq : q.lookup h with _ | ds
    · have hlen0 : (chainApps (f + 1) q h).length = 0 := by
        rw [chainApps_succ, hq]
        rfl
      have hjh : j = h := by omega
      subst hjh
      rw [chainApps_succ f (q.insert j v) j, Finmap.lookup_insert]
      dsimp only
      rw [insert_erase_same, erase_absent q j hj]
      rw [chainApps_succ f q j, hq, List.nil_append]
      rw [chainApps_fuel_irrel f (f + 1) q (j + 1) (by omega) (by omega)]
    · have hcard := card_erase_of_lookup_some hq
      have hpos := card_pos_of_lookup_some hq
      have hlen : (chainApps (f + 1) q h).length =
          (chainApps f (q.erase h) (h + 1)).length + 1 := by
        rw [chainApps_succ, hq]
        rfl
      have hjh : j ≠ h := by omega
      rw [chainApps_succ, Finmap.lookup_insert_of_ne _ (fun hh => hjh hh.symm), hq]
      dsimp only
      rw [insert_erase_comm q j h v hjh,
        ih (q.erase h) (h + 1) j v ((Finmap.lookup_erase_ne hjh).trans hj)
          (by omega) (by omega)]
      rw [chainApps_congr f (q.erase h) q (j + 1) (fun k hk => by
        rw [Finmap.lookup_erase_ne (by omega : k ≠ h)])]
      rw [chainApps_succ f q h, hq]
      dsimp only
      rw [List.cons_append]
      rw [chainApps_fuel_irrel f (f + 1) q (j + 1) (by omega) (by omega)]

theorem card_keys_insert_of_lookup_none {q : Finmap (fun _ : Nat => List Nat)} {j : Nat}
    {v : List Nat} (hj : q.lookup j = none) :
    (q.insert j v).keys.card = q.keys.card + 1 := by
  have hnm : j ∉ q := Finmap.lookup_eq_none.mp hj
  have hent : (q.insert j v).entries = ⟨j, v⟩ ::ₘ q.entries :=
    Finmap.insert_entries_of_neg hnm
  show Multiset.card ((q.insert j v).entries.keys) = Multiset.card (q.entries.keys) + 1
  rw [hent]
  simp [Multiset.keys]

theorem card_eraseRun_le :
    ∀ (n : Nat) (q : Finmap (fun _ : Nat => List Nat)) (h : Nat),
      (eraseRun q h n).keys.card ≤ q.keys.card := by
  intro n
  induction n with
  | zero => intro q h; exact le_refl _
  | succ n ih =>
    intro q h
    calc (eraseRun (q.erase h) (h + 1) n).keys.card ≤ (q.erase h).keys.card := ih _ _
      _ ≤ q.keys.card := by
          rw [Finmap.keys_erase]
          exact Finset.card_erase_le

/-- Inserting a key outside the erased run commutes with the run of
erasures. -/
theorem eraseRun_insert_comm :
    ∀ (n : Nat) (q : Finmap (fun _ : Nat => List Nat)) (h j : Nat) (v : List Nat),
      (j < h ∨ h + n ≤ j) →
      eraseRun (q.insert j v) h n = (eraseRun q h n).insert j v := by
  intro n q h j v hout
  apply Finmap.ext_lookup
  intro k
  rw [eraseRun_lookup]
  by_cases hkj : k = j
  · subst hkj
    rw [Finmap.lookup_insert, if_neg (by omega), Finmap.lookup_insert]
  · rw [Finmap.lookup_insert_of_ne _ hkj]
    by_cases hk : h ≤ k ∧ k < h + n
    · rw [if_pos hk]
      rw [Finmap.lookup_insert_of_ne _ hkj, eraseRun_lookup, if_pos hk]
    · rw [if_neg hk, Finmap.lookup_insert_of_ne _ hkj, eraseRun_lookup, if_neg hk]

/-- Congruence for chains that provably stop below the first key where two
queues may disagree. -/
theorem chainApps_congr_below :
    ∀ (f : Nat) (q1 q2 : Finmap (fun _ : Nat => List Nat)) (h m : Nat),
      (∀ k, h ≤ k → k < m → q1.lookup k = q2.lookup k) →
      h + (chainApps f q1 h).length < m →
      chainApps f q1 h = chainApps f q2 h := by
  intro f
  induction f with
  | zero => intro q1 q2 h m _ _; rfl
  | succ f ih =>
    intro q1 q2 h m hagree hstop
    have hh : q1.lookup h = q2.lookup h := hagree h (le_refl h) (by omega)
    rw [chainApps_succ, chainApps_succ, ← hh]
    rcases hq : q1.lookup h with _ | ds
    · rfl
    · have hlen : (chainApps (f + 1) q1 h).length =
          (chainApps f (q1.erase h) (h + 1)).length + 1 := by
        rw [chainApps_succ, hq]
        rfl
      dsimp only
      rw [ih (q1.erase h) (q2.erase h) (h + 1) m (fun k hk1 hk2 => by
        rw [Finmap.lookup_erase_ne (by omega : k ≠ h),
          Finmap.lookup_erase_ne (by omega : k ≠ h)]
        exact hagree k (by omega) hk2) (by omega)]

theorem applyList_cons (c : CoreView) (p : Nat × List Nat) (l : List (Nat × List Nat)) :
    applyList c (p :: l) = applyList (coreApply c p.1 p.2) l := rfl

/-- The `next_finalized` value after folding a drain chain. -/
theorem applyList_chain_nf :
    ∀ (f : Nat) (q : Finmap (fun _ : Nat => List Nat)) (h : Nat) (c : CoreView),
      (applyList c (chainApps f q h)).nf =
        if (chainApps f q h).length = 0 then c.nf
        else max c.nf (h + (chainApps f q h).length + 1) := by
  intro f
  induction f with
  | zero =>
    intro q h c
    have h0 : chainApps 0 q h = [] := rfl
    rw [h0, if_pos (show ([] : List (Nat × List Nat)).length = 0 from rfl)]
    rfl
  | succ f ih =>
    intro q h c
    rcases hq : q.lookup h with _ | ds
    · rw [chainApps_succ, hq]
      rfl
    · rw [chainApps_succ, hq]
      dsimp only [List.length_cons]
      rw [if_neg (by omega)]
      show (applyList (coreApply c (h + 1) ds) (chainApps f (q.erase h) (h + 1))).nf = _
      rw [ih]
      have hanf : (coreApply c (h + 1) ds).nf = max c.nf (h + 2) := by
        rw [coreApply_eq]
      by_cases hl : (chainApps f (q.erase h) (h + 1)).length = 0
      · rw [if_pos hl, hanf, hl]
      · rw [if_neg hl, hanf]
        omega

/-- The drain loop is the fold of the chain applications, with the consumed
run of keys erased from the queue. -/
theorem coreDrain_char :
    ∀ (f : Nat) (c : CoreView) (h : Nat),
      coreDrain f c h =
        { applyList c (chainApps f c.fqueue h) with
          fqueue := eraseRun c.fqueue h (chainApps f c.fqueue h).length } := by
  intro f
  induction f with
  | zero => intro c h; rfl
  | succ f ih =>
    intro c h
    rw [chainApps_succ]
    show coreDrain (f + 1) c h = _
    unfold coreDrain
    rcases hq : c.fqueue.lookup h with _ | ds
    · rfl
    · dsimp only
      rw [coreApply_set_fq, ih, applyList_set_fq]
      dsimp only
      rfl

/-- A finalization whose height is already at most `next_finalized` applies
the block and drains the chain: characterization via `chainApps`. -/
theorem coreDeliver_applied_char (c : CoreView) (p : Nat × List Nat × List Nat)
    (hle : p.1 ≤ c.nf) :
    coreDeliver c p =
      { applyList (coreApply c p.1 (p.2.1 ++ p.2.2))
          (chainApps c.fqueue.keys.card c.fqueue p.1) with
        fqueue :=
          eraseRun c.fqueue p.1 (chainApps c.fqueue.keys.card c.fqueue p.1).length } := by
  unfold coreDeliver
  rw [if_neg (by omega)]
  rw [coreDrain_char, coreApply_fq]

/-- A finalization whose height is above `next_finalized` only queues the
block. -/
theorem coreDeliver_queued_char (c : CoreView) (p : Nat × List Nat × List Nat)
    (hgt : c.nf < p.1) :
    coreDeliver c p =
      { c with fqueue := c.fqueue.insert (p.1 - 1) (p.2.1 ++ p.2.2) } := by
  unfold coreDeliver
  rw [if_pos (by omega)]

theorem coreDeliver_applied_nf (c : CoreView) (p : Nat × List Nat × List Nat)
    (hle : p.1 ≤ c.nf) :
    (coreDeliver c p).nf =
      max c.nf (p.1 + (chainApps c.fqueue.keys.card c.fqueue p.1).length + 1) := by
  rw [coreDeliver_applied_char c p hle]
  dsimp only
  rw [applyList_chain_nf]
  have hanf : (coreApply c p.1 (p.2.1 ++ p.2.2)).nf = max c.nf (p.1 + 1) := by
    rw [coreApply_eq]
  by_cases hl : (chainApps c.fqueue.keys.card c.fqueue p.1).length = 0
  · rw [if_pos hl, hanf, hl]
  · rw [if_neg hl, hanf]
    omega

/-- Two finalizations that both arrive above `next_finalized` are queued
under distinct keys, in either order. -/
theorem coreDeliver_comm_qq (c : CoreView) (a b : Nat × List Nat × List Nat)
    (hab : a.1 ≠ b.1) (hxa : c.nf < a.1) (hxb : c.nf < b.1) :
    coreDeliver (coreDeliver c a) b = coreDeliver (coreDeliver c b) a := by
  rw [coreDeliver_queued_char c a hxa, coreDeliver_queued_char c b hxb]
  rw [coreDeliver_queued_char { c with fqueue := c.fqueue.insert (a.1 - 1) (a.2.1 ++ a.2.2) }
    b hxb]
  rw [coreDeliver_queued_char { c with fqueue := c.fqueue.insert (b.1 - 1) (b.2.1 ++ b.2.2) }
    a hxa]
  dsimp only
  rw [Finmap.insert_insert_of_ne _ (by omega : a.1 - 1 ≠ b.1 - 1)]

/-- A finalization at or below `next_finalized` and one above it commute:
either the queued one lands beyond the drained chain, or it sits exactly at
the stop key and the single bigger drain equals the two-step processing. -/
theorem coreDeliver_comm_aq (c : CoreView) (a b : Nat × List Nat × List Nat)
    (hxa : a.1 ≤ c.nf) (hxb : c.nf < b.1)
    (hgb : c.fqueue.lookup (b.1 - 1) = none) :
    coreDeliver (coreDeliver c a) b = coreDeliver (coreDeliver c b) a := by
  obtain ⟨x, a2⟩ := a
  obtain ⟨y, b2⟩ := b
  dsimp only at hxa hxb hgb ⊢
  have hx1 : coreDeliver c (x, a2) =
      { applyList (coreApply c x (a2.1 ++ a2.2))
          (chainApps c.fqueue.keys.card c.fqueue x) with
        fqueue :=
          eraseRun c.fqueue x (chainApps c.fqueue.keys.card c.fqueue x).length } :=
    coreDeliver_applied_char c (x, a2) hxa
  have hnf1 : (coreDeliver c (x, a2)).nf =
      max c.nf (x + (chainApps c.fqueue.keys.card c.fqueue x).length + 1) :=
    coreDeliver_applied_nf c (x, a2) hxa
  have hyx : x ≤ y - 1 := by omega
  have hstop : x + (chainApps c.fqueue.keys.card c.fqueue x).length ≤ y - 1 := by
    by_contra hcon
    push_neg at hcon
    have hi := chainApps_present c.fqueue.keys.card c.fqueue x (y - 1 - x) (by omega)
    rw [show x + (y - 1 - x) = y - 1 by omega, hgb] at hi
    cases hi
  have hcard2 : (c.fqueue.insert (y - 1) (b2.1 ++ b2.2)).keys.card =
      c.fqueue.keys.card + 1 := card_keys_insert_of_lookup_none hgb
  have hb2 : coreDeliver c (y, b2) =
      { c with fqueue := c.fqueue.insert (y - 1) (b2.1 ++ b2.2) } :=
    coreDeliver_queued_char c (y, b2) hxb
  by_cases hsplit : x + (chainApps c.fqueue.keys.card c.fqueue x).length < y - 1
  · -- the queued entry lands beyond the chain's stop key
    have hy1 : (coreDeliver c (x, a2)).nf < y := by rw [hnf1]; omega
    rw [coreDeliver_queued_char (coreDeliver c (x, a2)) (y, b2) hy1, hx1, hb2]
    rw [coreDeliver_applied_char { c with fqueue := c.fqueue.insert (y - 1) (b2.1 ++ b2.2) }
      (x, a2) hxa]
    dsimp only
    have hch1 : chainApps (c.fqueue.insert (y - 1) (b2.1 ++ b2.2)).keys.card
        (c.fqueue.insert (y - 1) (b2.1 ++ b2.2)) x = chainApps c.fqueue.keys.card c.fqueue x := by
      rw [hcard2]
      have hlen1 : chainApps (c.fqueue.keys.card + 1) c.fqueue x =
          chainApps c.fqueue.keys.card c.fqueue x :=
        chainApps_fuel_irrel _ _ c.fqueue x (by omega) (by omega)
      rw [chainApps_insert_high (c.fqueue.keys.card + 1) c.fqueue x (y - 1) (b2.1 ++ b2.2)
        hgb (by rw [hlen1]; omega) (by omega), hlen1]
    rw [hch1]
    rw [coreApply_set_fq c x (a2.1 ++ a2.2) (c.fqueue.insert (y - 1) (b2.1 ++ b2.2))]
    rw [applyList_set_fq (chainApps c.fqueue.keys.card c.fqueue x) (coreApply c x (a2.1 ++ a2.2))
      (c.fqueue.insert (y - 1) (b2.1 ++ b2.2))]
    rw [eraseRun_insert_comm (chainApps c.fqueue.keys.card c.fqueue x).length c.fqueue x
      (y - 1) (b2.1 ++ b2.2) (Or.inr (by omega))]
  · -- the queued entry sits exactly at the stop key
    have hyeq : y - 1 = x + (chainApps c.fqueue.keys.card c.fqueue x).length := by omega
    have hy1 : y ≤ (coreDeliver c (x, a2)).nf := by rw [hnf1]; omega
    rw [coreDeliver_applied_char (coreDeliver c (x, a2)) (y, b2) hy1, hx1, hb2]
    rw [coreDeliver_applied_char { c with fqueue := c.fqueue.insert (y - 1) (b2.1 ++ b2.2) }
      (x, a2) hxa]
    dsimp only
    -- notation
    have hfe : (eraseRun c.fqueue x
        (chainApps c.fqueue.keys.card c.fqueue x).length).keys.card ≤
        c.fqueue.keys.card + 2 :=
      le_trans (card_eraseRun_le _ c.fqueue x) (by omega)
    have hchy : chainApps (eraseRun c.fqueue x
          (chainApps c.fqueue.keys.card c.fqueue x).length).keys.card
        (eraseRun c.fqueue x (chainApps c.fqueue.keys.card c.fqueue x).length) y =
        chainApps (c.fqueue.keys.card + 2) c.fqueue y := by
      rw [chainApps_fuel_irrel _ (c.fqueue.keys.card + 2) _ y (le_refl _) hfe]
      exact chainApps_congr _ _ c.fqueue y (fun k hk => by
        rw [eraseRun_lookup, if_neg (by omega)])
    have hch0 : chainApps (c.fqueue.keys.card + 2) c.fqueue x =
        chainApps c.fqueue.keys.card c.fqueue x :=
      chainApps_fuel_irrel _ _ c.fqueue x (by omega) (by omega)
    have hch2 : chainApps (c.fqueue.insert (y - 1) (b2.1 ++ b2.2)).keys.card
        (c.fqueue.insert (y - 1) (b2.1 ++ b2.2)) x =
        chainApps c.fqueue.keys.card c.fqueue x ++
          (y, b2.1 ++ b2.2) :: chainApps (c.fqueue.keys.card + 2) c.fqueue y := by
      rw [hcard2]
      rw [chainApps_fuel_irrel (c.fqueue.keys.card + 1) (c.fqueue.keys.card + 2)
        (c.fqueue.insert (y - 1) (b2.1 ++ b2.2)) x (by omega) (by omega)]
      rw [chainApps_insert_stop (c.fqueue.keys.card + 2) c.fqueue x (y - 1) (b2.1 ++ b2.2)
        hgb (by rw [hch0]; omega) (by omega)]
      rw [hch0, show y - 1 + 1 = y by omega]
    rw [hch2, hchy]
    rw [coreApply_set_fq (applyList (coreApply c x (a2.1 ++ a2.2))
        (chainApps c.fqueue.keys.card c.fqueue x)) y (b2.1 ++ b2.2)
      (eraseRun c.fqueue x (chainApps c.fqueue.keys.card c.fqueue x).length)]
    rw [applyList_set_fq (chainApps (c.fqueue.keys.card + 2) c.fqueue y)
      (coreApply (applyList (coreApply c x (a2.1 ++ a2.2))
        (chainApps c.fqueue.keys.card c.fqueue x)) y (b2.1 ++ b2.2))
      (eraseRun c.fqueue x (chainApps c.fqueue.keys.card c.fqueue x).length)]
    rw [coreApply_set_fq c x (a2.1 ++ a2.2) (c.fqueue.insert (y - 1) (b2.1 ++ b2.2))]
    rw [applyList_set_fq (chainApps c.fqueue.keys.card c.fqueue x ++
        (y, b2.1 ++ b2.2) :: chainApps (c.fqueue.keys.card + 2) c.fqueue y)
      (coreApply c x (a2.1 ++ a2.2)) (c.fqueue.insert (y - 1) (b2.1 ++ b2.2))]
    dsimp only
    -- fields: fold over the single extended chain equals the two-step fold
    rw [applyList_append (coreApply c x (a2.1 ++ a2.2))
      (chainApps c.fqueue.keys.card c.fqueue x)
      ((y, b2.1 ++ b2.2) :: chainApps (c.fqueue.keys.card + 2) c.fqueue y)]
    rw [applyList_cons (applyList (coreApply c x (a2.1 ++ a2.2))
        (chainApps c.fqueue.keys.card c.fqueue x)) (y, b2.1 ++ b2.2)
      (chainApps (c.fqueue.keys.card + 2) c.fqueue y)]
    dsimp only
    -- queues
    have hqeq : eraseRun (eraseRun c.fqueue x
          (chainApps c.fqueue.keys.card c.fqueue x).length) y
          (chainApps (c.fqueue.keys.card + 2) c.fqueue y).length =
        eraseRun (c.fqueue.insert (y - 1) (b2.1 ++ b2.2)) x
          (chainApps c.fqueue.keys.card c.fqueue x ++
            (y, b2.1 ++ b2.2) :: chainApps (c.fqueue.keys.card + 2) c.fqueue y).length := by
      apply Finmap.ext_lookup
      intro k
      rw [eraseRun_lookup, eraseRun_lookup, eraseRun_lookup,
        List.length_append, List.length_cons]
      by_cases h1 : y ≤ k ∧ k < y + (chainApps (c.fqueue.keys.card + 2) c.fqueue y).length
      · rw [if_pos h1, if_pos (by omega)]
      · rw [if_neg h1]
        by_cases h2 : x ≤ k ∧ k < x + (chainApps c.fqueue.keys.card c.fqueue x).length
        · rw [if_pos h2, if_pos (by omega)]
        · rw [if_neg h2]
          by_cases h3 : k = y - 1
          · subst h3
            rw [if_pos (by omega)]
            exact hgb
          · by_cases h4 : x ≤ k ∧ k < x +
                ((chainApps c.fqueue.keys.card c.fqueue x).length +
                  ((chainApps (c.fqueue.keys.card + 2) c.fqueue y).length + 1))
            · exfalso
              omega
            · rw [if_neg h4, Finmap.lookup_insert_of_ne _ h3]
    rw [hqeq]

/-- Two finalizations that both arrive at or below `next_finalized` commute,
provided the queue holds no entry keyed one below the larger height: the two
drained chains are disjoint, the folds are permutations of one another, and
the two erase runs commute. -/
theorem coreDeliver_comm_aa (c : CoreView) (a b : Nat × List Nat × List Nat)
    (hlt : a.1 < b.1) (hxa : a.1 ≤ c.nf) (hxb : b.1 ≤ c.nf)
    (hgb : c.fqueue.lookup (b.1 - 1) = none) :
    coreDeliver (coreDeliver c a) b = coreDeliver (coreDeliver c b) a := by
  obtain ⟨x, a2⟩ := a
  obtain ⟨y, b2⟩ := b
  dsimp only at hlt hxa hxb hgb ⊢
  have hx1 : coreDeliver c (x, a2) =
      { applyList (coreApply c x (a2.1 ++ a2.2))
          (chainApps c.fqueue.keys.card c.fqueue x) with
        fqueue :=
          eraseRun c.fqueue x (chainApps c.fqueue.keys.card c.fqueue x).length } :=
    coreDeliver_applied_char c (x, a2) hxa
  have hy1 : coreDeliver c (y, b2) =
      { applyList (coreApply c y (b2.1 ++ b2.2))
          (chainApps c.fqueue.keys.card c.fqueue y) with
        fqueue :=
          eraseRun c.fqueue y (chainApps c.fqueue.keys.card c.fqueue y).length } :=
    coreDeliver_applied_char c (y, b2) hxb
  have hnfx : (coreDeliver c (x, a2)).nf =
      max c.nf (x + (chainApps c.fqueue.keys.card c.fqueue x).length + 1) :=
    coreDeliver_applied_nf c (x, a2) hxa
  have hnfy : (coreDeliver c (y, b2)).nf =
      max c.nf (y + (chainApps c.fqueue.keys.card c.fqueue y).length + 1) :=
    coreDeliver_applied_nf c (y, b2) hxb
  have hstop : x + (chainApps c.fqueue.keys.card c.fqueue x).length ≤ y - 1 := by
    by_contra hcon
    push_neg at hcon
    have hi := chainApps_present c.fqueue.keys.card c.fqueue x (y - 1 - x) (by omega)
    rw [show x + (y - 1 - x) = y - 1 by omega, hgb] at hi
    cases hi
  have hby : y ≤ (coreDeliver c (x, a2)).nf := by rw [hnfx]; omega
  have hbx : x ≤ (coreDeliver c (y, b2)).nf := by rw [hnfy]; omega
  rw [coreDeliver_applied_char (coreDeliver c (x, a2)) (y, b2) hby, hx1]
  rw [coreDeliver_applied_char (coreDeliver c (y, b2)) (x, a2) hbx, hy1]
  dsimp only
  have hchy2 : chainApps
        (eraseRun c.fqueue x (chainApps c.fqueue.keys.card c.fqueue x).length).keys.card
        (eraseRun c.fqueue x (chainApps c.fqueue.keys.card c.fqueue x).length) y =
      chainApps c.fqueue.keys.card c.fqueue y := by
    rw [chainApps_fuel_irrel _ c.fqueue.keys.card _ y (le_refl _) (card_eraseRun_le _ _ _)]
    exact chainApps_congr _ _ c.fqueue y (fun k hk => by
      rw [eraseRun_lookup, if_neg (by omega)])
  have hchx2 : chainApps
        (eraseRun c.fqueue y (chainApps c.fqueue.keys.card c.fqueue y).length).keys.card
        (eraseRun c.fqueue y (chainApps c.fqueue.keys.card c.fqueue y).length) x =
      chainApps c.fqueue.keys.card c.fqueue x := by
    rw [chainApps_fuel_irrel _ c.fqueue.keys.card _ x (le_refl _) (card_eraseRun_le _ _ _)]
    exact (chainApps_congr_below c.fqueue.keys.card c.fqueue
      (eraseRun c.fqueue y (chainApps c.fqueue.keys.card c.fqueue y).length) x y
      (fun k hk1 hk2 =>
        (by rw [eraseRun_lookup, if_neg (by omega)] :
          (eraseRun c.fqueue y
            (chainApps c.fqueue.keys.card c.fqueue y).length).lookup k =
            c.fqueue.lookup k).symm)
      (by omega)).symm
  rw [hchy2, hchx2]
  rw [coreApply_set_fq (applyList (coreApply c x (a2.1 ++ a2.2))
      (chainApps c.fqueue.keys.card c.fqueue x)) y (b2.1 ++ b2.2)
    (eraseRun c.fqueue x (chainApps c.fqueue.keys.card c.fqueue x).length)]
  rw [applyList_set_fq (chainApps c.fqueue.keys.card c.fqueue y)
    (coreApply (applyList (coreApply c x (a2.1 ++ a2.2))
      (chainApps c.fqueue.keys.card c.fqueue x)) y (b2.1 ++ b2.2))
    (eraseRun c.fqueue x (chainApps c.fqueue.keys.card c.fqueue x).length)]
  rw [coreApply_set_fq (applyList (coreApply c y (b2.1 ++ b2.2))
      (chainApps c.fqueue.keys.card c.fqueue y)) x (a2.1 ++ a2.2)
    (eraseRun c.fqueue y (chainApps c.fqueue.keys.card c.fqueue y).length)]
  rw [applyList_set_fq (chainApps c.fqueue.keys.card c.fqueue x)
    (coreApply (applyList (coreApply c y (b2.1 ++ b2.2))
      (chainApps c.fqueue.keys.card c.fqueue y)) x (a2.1 ++ a2.2))
    (eraseRun c.fqueue y (chainApps c.fqueue.keys.card c.fqueue y).length)]
  dsimp only
  have e1 : applyList c
        (((x, a2.1 ++ a2.2) :: chainApps c.fqueue.keys.card c.fqueue x) ++
          ((y, b2.1 ++ b2.2) :: chainApps c.fqueue.keys.card c.fqueue y)) =
      applyList (coreApply (applyList (coreApply c x (a2.1 ++ a2.2))
        (chainApps c.fqueue.keys.card c.fqueue x)) y (b2.1 ++ b2.2))
        (chainApps c.fqueue.keys.card c.fqueue y) := by
    rw [applyList_append]
    rfl
  have e2 : applyList c
        (((y, b2.1 ++ b2.2) :: chainApps c.fqueue.keys.card c.fqueue y) ++
          ((x, a2.1 ++ a2.2) :: chainApps c.fqueue.keys.card c.fqueue x)) =
      applyList (coreApply (applyList (coreApply c y (b2.1 ++ b2.2))
        (chainApps c.fqueue.keys.card c.fqueue y)) x (a2.1 ++ a2.2))
        (chainApps c.fqueue.keys.card c.fqueue x) := by
    rw [applyList_append]
    rfl
  have ep : applyList c
        (((x, a2.1 ++ a2.2) :: chainApps c.fqueue.keys.card c.fqueue x) ++
          ((y, b2.1 ++ b2.2) :: chainApps c.fqueue.keys.card c.fqueue y)) =
      applyList c
        (((y, b2.1 ++ b2.2) :: chainApps c.fqueue.keys.card c.fqueue y) ++
          ((x, a2.1 ++ a2.2) :: chainApps c.fqueue.keys.card c.fqueue x)) :=
    applyList_perm c List.perm_append_comm
  rw [e1.symm.trans (ep.trans e2)]
  have hq : eraseRun (eraseRun c.fqueue x (chainApps c.fqueue.keys.card c.fqueue x).length)
        y (chainApps c.fqueue.keys.card c.fqueue y).length =
      eraseRun (eraseRun c.fqueue y (chainApps c.fqueue.keys.card c.fqueue y).length)
        x (chainApps c.fqueue.keys.card c.fqueue x).length := by
    apply Finmap.ext_lookup
    intro k
    rw [eraseRun_lookup, eraseRun_lookup, eraseRun_lookup, eraseRun_lookup]
    by_cases h1 : y ≤ k ∧ k < y + (chainApps c.fqueue.keys.card c.fqueue y).length
    · rw [if_pos h1,
        if_neg (show ¬(x ≤ k ∧ k < x + (chainApps c.fqueue.keys.card c.fqueue x).length)
          by omega),
        if_pos h1]
    · rw [if_neg h1]
      by_cases h2 : x ≤ k ∧ k < x + (chainApps c.fqueue.keys.card c.fqueue x).length
      · rw [if_pos h2, if_pos h2]
      · rw [if_neg h2, if_neg h2, if_neg h1]
  rw [hq]

/-- Two finalizations at distinct heights commute, provided the queue holds
no entry keyed one below either height. -/
theorem coreDeliver_comm (c : CoreView) (a b : Nat × List Nat × List Nat)
    (hab : a.1 ≠ b.1)
    (hga : 1 ≤ a.1 → c.fqueue.lookup (a.1 - 1) = none)
    (hgb : 1 ≤ b.1 → c.fqueue.lookup (b.1 - 1) = none) :
    coreDeliver (coreDeliver c a) b = coreDeliver (coreDeliver c b) a := by
  by_cases ha : a.1 ≤ c.nf
  · by_cases hb : b.1 ≤ c.nf
    · rcases Nat.lt_or_ge a.1 b.1 with hlt | hge
      · exact coreDeliver_comm_aa c a b hlt ha hb (hgb (by omega))
      · exact (coreDeliver_comm_aa c b a (by omega) hb ha (hga (by omega))).symm
    · exact coreDeliver_comm_aq c a b ha (by omega) (hgb (by omega))
  · by_cases hb : b.1 ≤ c.nf
    · exact (coreDeliver_comm_aq c b a hb (by omega) (hga (by omega))).symm
    · exact coreDeliver_comm_qq c a b hab (by omega) (by omega)

/-- Delivering a finalization never makes a key of the form `height − 1`
appear for another pending height: inserts go to the delivered height's own
predecessor key, and drains only erase keys. -/
theorem coreDeliver_good (c : CoreView) (p r : Nat × List Nat × List Nat)
    (hne : r.1 ≠ p.1) (hr : 1 ≤ r.1 → c.fqueue.lookup (r.1 - 1) = none) :
    1 ≤ r.1 → (coreDeliver c p).fqueue.lookup (r.1 - 1) = none := by
  intro h1
  by_cases hq : c.nf < p.1
  · rw [coreDeliver_queued_char c p hq]
    dsimp only
    rw [Finmap.lookup_insert_of_ne _ (show r.1 - 1 ≠ p.1 - 1 by omega)]
    exact hr h1
  · rw [coreDeliver_applied_char c p (by omega)]
    dsimp only
    rw [eraseRun_lookup]
    by_cases hin : p.1 ≤ r.1 - 1 ∧
        r.1 - 1 < p.1 + (chainApps c.fqueue.keys.card c.fqueue p.1).length
    · rw [if_pos hin]
    · rw [if_neg hin]
      exact hr h1

/-- Delivering finalizations of pairwise-distinct heights is
order-independent, provided the initial queue holds no entry keyed one below
any delivered height. -/
theorem coreDeliverSeq_perm {L1 L2 : List (Nat × List Nat × List Nat)}
    (hp : L1.Perm L2) :
    ∀ c : CoreView, (L1.map Prod.fst).Nodup →
      (∀ p ∈ L1, 1 ≤ p.1 → c.fqueue.lookup (p.1 - 1) = none) →
      coreDeliverSeq c L1 = coreDeliverSeq c L2 := by
  induction hp with
  | nil => intro c _ _; rfl
  | cons p hp ih =>
    intro c hnd hg
    show coreDeliverSeq (coreDeliver c p) _ = coreDeliverSeq (coreDeliver c p) _
    apply ih
    · exact (List.nodup_cons.mp (by simpa using hnd)).2
    · intro r hr h1
      have hne : r.1 ≠ p.1 := by
        have hmem : r.1 ∈ List.map Prod.fst _ := List.mem_map_of_mem Prod.fst hr
        intro heq
        exact (List.nodup_cons.mp (by simpa using hnd)).1 (heq ▸ hmem)
      exact coreDeliver_good c p r hne (hg r (List.mem_cons_of_mem p hr)) h1
  | swap a b l =>
    intro c hnd hg
    show coreDeliverSeq (coreDeliver (coreDeliver c b) a) l =
      coreDeliverSeq (coreDeliver (coreDeliver c a) b) l
    have hnd' : (b.1 :: a.1 :: l.map Prod.fst).Nodup := by
      simpa only [List.map_cons] using hnd
    have hab : b.1 ≠ a.1 := by
      have hnm := (List.nodup_cons.mp hnd').1
      intro heq
      exact hnm (heq ▸ List.mem_cons_self a.1 _)
    rw [coreDeliver_comm c b a hab
      (hg b (List.mem_cons_self b _))
      (hg a (List.mem_cons_of_mem b (List.mem_cons_self a _)))]
  | trans hp1 hp2 ih1 ih2 =>
    intro c hnd hg
    rw [ih1 c hnd hg]
    apply ih2
    · exact ((hp1.map Prod.fst).nodup_iff).mp hnd
    · intro r hr h1
      exact hg r (hp1.mem_iff.mpr hr) h1

/-- The request-queue invariant: every queued request key is strictly above
`next_finalized`. (The flush in `handle_finalized_block` removes only the
single key equal to the new `next_finalized`; this invariant is what makes
that sufficient — no populated key is ever at or below `next_finalized`,
so none can be skipped over.) -/
def rqInv (s : Ready) : Prop :=
  ∀ k ∈ s.request_queue, s.sets.next_finalized < k

theorem moveOne_nf_rq (s : Ready) (h : Nat) :
    (moveOne s h).sets.next_finalized = s.sets.next_finalized ∧
    (moveOne s h).request_queue = s.request_queue := by
  unfold moveOne
  rcases pendingLookup h s.sets.pending with _ | dt <;> exact ⟨rfl, rfl⟩

theorem moveAll_nf_rq (deploys : List Nat) :
    ∀ s : Ready,
      (moveAll s deploys).sets.next_finalized = s.sets.next_finalized ∧
      (moveAll s deploys).request_queue = s.request_queue := by
  induction deploys with
  | nil => intro s; exact ⟨rfl, rfl⟩
  | cons d rest ih =>
    intro s
    obtain ⟨h1, h2⟩ := moveOne_nf_rq s d
    obtain ⟨h3, h4⟩ := ih (moveOne s d)
    exact ⟨h3.trans h1, h4.trans h2⟩

theorem handle_finalized_block_nf (s : Ready) (height : Nat) (deploys : List Nat) :
    (handle_finalized_block s height deploys).sets.next_finalized =
      max s.sets.next_finalized (height + 1) := by
  unfold handle_finalized_block
  simp only [(moveAll_nf_rq deploys s).1]

theorem handle_finalized_block_rq (s : Ready) (height : Nat) (deploys : List Nat) :
    (handle_finalized_block s height deploys).request_queue =
      s.request_queue.erase (max s.sets.next_finalized (height + 1)) := by
  unfold handle_finalized_block
  simp only [(moveAll_nf_rq deploys s).1, (moveAll_nf_rq deploys s).2]

theorem handle_finalized_block_inv (s : Ready) (height : Nat) (deploys : List Nat)
    (hInv : rqInv s) (hle : height ≤ s.sets.next_finalized) :
    rqInv (handle_finalized_block s height deploys) := by
  intro k hk
  rw [handle_finalized_block_rq] at hk
  rw [handle_finalized_block_nf]
  obtain ⟨hne, hmem⟩ := Finmap.mem_erase.mp hk
  have := hInv k hmem
  omega

theorem drainLoop_nf_inv (fuel : Nat) :
    ∀ (s : Ready) (height : Nat), rqInv s → height + 1 ≤ s.sets.next_finalized →
      rqInv (drainLoop fuel s height) ∧
      s.sets.next_finalized ≤ (drainLoop fuel s height).sets.next_finalized := by
  induction fuel with
  | zero => intro s height hInv _; exact ⟨hInv, le_refl _⟩
  | succ fuel ih =>
    intro s height hInv hle
    unfold drainLoop
    rcases hq : s.sets.finalization_queue.lookup height with _ | deploys
    · exact ⟨hInv, le_refl _⟩
    · dsimp only
      set s0 : Ready :=
        { s with sets := { s.sets with
            finalization_queue := s.sets.finalization_queue.erase height } } with hs0
      have hInv0 : rqInv s0 := hInv
      have hle0 : height + 1 ≤ s0.sets.next_finalized := hle
      have hInv1 : rqInv (handle_finalized_block s0 (height + 1) deploys) :=
        handle_finalized_block_inv s0 (height + 1) deploys hInv0 hle0
      have hnf1 : (handle_finalized_block s0 (height + 1) deploys).sets.next_finalized =
          max s0.sets.next_finalized (height + 2) := handle_finalized_block_nf _ _ _
      obtain ⟨hi, hm⟩ := ih (handle_finalized_block s0 (height + 1) deploys) (height + 1)
        hInv1 (by omega)
      refine ⟨hi, ?_⟩
      have : s.sets.next_finalized = s0.sets.next_finalized := rfl
      omega

theorem add_deploy_nf_rq (now hash : Nat) (dt : DeployType) (s : Ready) :
    (add_deploy_or_transfer now hash dt s).sets.next_finalized =
      s.sets.next_finalized ∧
    (add_deploy_or_transfer now hash dt s).request_queue = s.request_queue := by
  unfold add_deploy_or_transfer
  split_ifs <;> exact ⟨rfl, rfl⟩

end BlockProposer

section ClaimHelpers

/-- Summing pointwise floor divisions is below dividing the sum. -/
theorem list_sum_div_le (l : List Nat) (c : Nat) :
    (l.map (fun x => x / c)).sum ≤ l.sum / c := by
  rcases Nat.eq_zero_or_pos c with hc | hc
  · subst hc
    simp
  · induction l with
    | nil => simp
    | cons a l ih =>
      simp only [List.map_cons, List.sum_cons]
      calc a / c + (l.map (fun x => x / c)).sum ≤ a / c + l.sum / c :=
            Nat.add_le_add_left ih _
        _ ≤ (a + l.sum) / c := by
            rw [Nat.le_div_iff_mul_le hc, Nat.add_mul]
            exact Nat.add_le_add (Nat.div_mul_le_self a c) (Nat.div_mul_le_self l.sum c)

/-- A member of a list of naturals is at most the sum. -/
theorem list_mem_le_sum {l : List Nat} {a : Nat} (h : a ∈ l) : a ≤ l.sum := by
  induction l with
  | nil => cases h
  | cons b l ih =>
    rcases List.mem_cons.mp h with rfl | h
    · simp
    · simpa using le_trans (ih h) (Nat.le_add_left _ _)

/-- Facts about the rounded-up division `(T + M - 1) / M` for `T ≥ 1`:
it is the least `c` with `T ≤ c * M`, and dividing `T` by it stays
below `M`. -/
theorem ceil_div_facts (T M : Nat) (hM0 : 0 < M) (hT1 : 1 ≤ T) :
    T ≤ M * ((T + M - 1) / M) ∧ M * ((T + M - 1) / M - 1) < T ∧
      T / ((T + M - 1) / M) ≤ M := by
  have hrw : T + M - 1 = (T - 1) + M := by omega
  have hq : (T + M - 1) / M = (T - 1) / M + 1 := by rw [hrw, Nat.add_div_right _ hM0]
  have hdm := Nat.div_add_mod (T - 1) M
  have hmlt := Nat.mod_lt (T - 1) hM0
  rw [hq]
  have h1 : T ≤ M * ((T - 1) / M + 1) := by
    have hexp : M * ((T - 1) / M + 1) = M * ((T - 1) / M) + M := by ring
    omega
  have h2 : M * ((T - 1) / M + 1 - 1) < T := by
    simp only [Nat.add_sub_cancel]
    omega
  have h3 : T / ((T - 1) / M + 1) ≤ M := by
    have hc1 : 0 < (T - 1) / M + 1 := Nat.succ_pos _
    have hlt : T < (M + 1) * ((T - 1) / M + 1) := by
      have hexp : (M + 1) * ((T - 1) / M + 1) =
          M * ((T - 1) / M) + (T - 1) / M + M + 1 := by ring
      omega
    have := (Nat.div_lt_iff_lt_mul hc1).mpr hlt
    omega
  exact ⟨h1, h2, h3⟩

end ClaimHelpers

/-- C2: the fault-tolerance threshold computed by `new_boxed` equals
`floor(total_weight * numer / denom)` exactly — the `u128` product and the
final `u64` cast lose nothing for any `u64` total weight and any fraction
`numer/denom ≤ 1` — and `detect_finality` yields the `FttExceeded` outcome,
with participation logged and no `FinalizedBlock` outcomes, exactly when the
finality detector reports cumulative faulty weight exceeding that
threshold. -/
theorem c2_ftt_threshold (total_weight numer denom faulty_weight : Nat)
    (newly_finalized : List Nat)
    (htotal : total_weight < 2 ^ 64) (hnum : numer < 2 ^ 64)
    (hfrac : numer ≤ denom) (hden : 0 < denom) :
    Highway.ftt_value total_weight numer denom = total_weight * numer / denom ∧
    total_weight * numer / denom < 2 ^ 64 ∧
    (Highway.ProtocolOutcome.fttExceeded ∈
        (Highway.detect_finality faulty_weight (Highway.ftt_value total_weight numer denom)
          newly_finalized).2 ↔
      Highway.ftt_value total_weight numer denom < faulty_weight) ∧
    (Highway.ftt_value total_weight numer denom < faulty_weight →
      (Highway.detect_finality faulty_weight (Highway.ftt_value total_weight numer denom)
          newly_finalized).1 = true ∧
      ∀ v, Highway.ProtocolOutcome.finalizedBlock v ∉
        (Highway.detect_finality faulty_weight (Highway.ftt_value total_weight numer denom)
          newly_finalized).2) ∧
    (faulty_weight ≤ Highway.ftt_value total_weight numer denom →
      (Highway.detect_finality faulty_weight (Highway.ftt_value total_weight numer denom)
          newly_finalized).1 = false ∧
      (Highway.detect_finality faulty_weight (Highway.ftt_value total_weight numer denom)
          newly_finalized).2 =
        newly_finalized.map Highway.ProtocolOutcome.finalizedBlock) := by
  have hmul : total_weight * numer < 2 ^ 128 := by
    calc total_weight * numer < 2 ^ 64 * 2 ^ 64 :=
          Nat.mul_lt_mul_of_lt_of_le htotal (le_of_lt hnum) (by norm_num)
      _ = 2 ^ 128 := by norm_num
  have hdiv : total_weight * numer / denom ≤ total_weight := by
    calc total_weight * numer / denom ≤ total_weight * denom / denom :=
          Nat.div_le_div_right (Nat.mul_le_mul_left _ hfrac)
      _ = total_weight := Nat.mul_div_cancel _ hden
  have hlt : total_weight * numer / denom < 2 ^ 64 := lt_of_le_of_lt hdiv htotal
  have hval : Highway.ftt_value total_weight numer denom = total_weight * numer / denom := by
    unfold Highway.ftt_value
    rw [Nat.mod_eq_of_lt hmul, Nat.mod_eq_of_lt hlt]
  refine ⟨hval, hlt, ?_⟩
  rw [hval]
  by_cases hgt : total_weight * numer / denom < faulty_weight
  · have hr : Highway.detect_finality faulty_weight (total_weight * numer / denom)
        newly_finalized = (true, [.fttExceeded]) := by
      unfold Highway.detect_finality Highway.finality_run
      rw [if_pos hgt]
    rw [hr]
    refine ⟨by simp [hgt], fun _ => ⟨rfl, ?_⟩, fun hle => absurd hgt (by omega)⟩
    intro v hv
    simp only [List.mem_singleton] at hv
    cases hv
  · have hr : Highway.detect_finality faulty_weight (total_weight * numer / denom)
        newly_finalized =
        (false, newly_finalized.map Highway.ProtocolOutcome.finalizedBlock) := by
      unfold Highway.detect_finality Highway.finality_run
      rw [if_neg hgt]
    rw [hr]
    refine ⟨?_, fun h => absurd h hgt, fun _ => ⟨rfl, rfl⟩⟩
    simp only [List.mem_map]
    constructor
    · rintro ⟨v, _, hv⟩
      cases hv
    · intro h
      exact absurd h hgt

/-- C2 witness. -/
theorem c2_ftt_threshold_witness :
    (100 : Nat) < 2 ^ 64 ∧ (1 : Nat) < 2 ^ 64 ∧ (1 : Nat) ≤ 3 ∧ (0 : Nat) < 3 ∧
    (Highway.ftt_value 100 1 3 = 100 * 1 / 3 ∧
     Highway.ftt_value 100 1 3 < 34 ∧
     Highway.ProtocolOutcome.fttExceeded ∈
        (Highway.detect_finality 34 (Highway.ftt_value 100 1 3) [7]).2) :=
  ⟨by norm_num, by norm_num, by norm_num, by norm_num, by
    obtain ⟨h1, _, h3, _, _⟩ :=
      c2_ftt_threshold 100 1 3 34 [7] (by norm_num) (by norm_num) (by norm_num) (by norm_num)
    have hlt : Highway.ftt_value 100 1 3 < 34 := by rw [h1]; norm_num
    exact ⟨h1, hlt, h3.mpr hlt⟩⟩

/-- C4 counterexample: with `now = 0`, `era_start = 5` and
`pending_vertex_timeout = 7`, the purge timer is scheduled at `7`, not at
`max(now, era_start) + 7 = 12`; so the three timers are not all scheduled at
`max(now, era_start)` plus their configured intervals as the claim states. -/
theorem c4_counterexample :
    ¬ (Highway.initialize_timers 0 5 ⟨7, 1, 2⟩ =
      [.scheduleTimer (max 0 5 + 7) Highway.TIMER_ID_PURGE_VERTICES,
       .scheduleTimer (max 0 5 + 1) Highway.TIMER_ID_LOG_PARTICIPATION,
       .scheduleTimer (max 0 5 + 2) Highway.TIMER_ID_STANDSTILL_ALERT]) := by
  decide

/-- C4 amended: initializing a Highway instance schedules exactly three
periodic timers — the vertex purge at `now + pending_vertex_timeout`, and
the participation log and standstill alert at `max(now, era_start)` plus
their configured intervals — and gossips a `LatestStateRequest` carrying an
all-`None` panorama of length `validators.len()`. -/
theorem c4_initialization_timers (now era_start_time : Nat)
    (cfg : Highway.HighwayConfig) (num_validators : Nat) :
    Highway.new_boxed_outcomes now era_start_time cfg num_validators =
      [.scheduleTimer (now + cfg.pending_vertex_timeout) Highway.TIMER_ID_PURGE_VERTICES,
       .scheduleTimer (max now era_start_time + cfg.log_participation_interval)
         Highway.TIMER_ID_LOG_PARTICIPATION,
       .scheduleTimer (max now era_start_time + cfg.standstill_timeout)
         Highway.TIMER_ID_STANDSTILL_ALERT,
       .createdGossipMessage
         (.latestStateRequest
           (List.replicate num_validators Highway.Observation.nothing))] ∧
    ((Highway.new_boxed_outcomes now era_start_time cfg num_validators).filter
      (fun o => match o with
        | .scheduleTimer _ _ => true
        | _ => false)).length = 3 := by
  constructor <;> rfl

/-- C5: with a nonzero total stake, the scaling factor of `new_boxed` is
exactly `ceil(sum_stakes / u64::MAX)` (characterized as the least `c` with
`sum ≤ c * u64::MAX`), every scaled weight is exactly `stake / scale` (the
`u64` cast loses nothing), and the scaled weights sum to at most
`u64::MAX`. -/
theorem c5_stake_scaling (stakes : List Nat)
    (hsum : stakes.sum ≠ 0) (hbound : stakes.sum + Highway.u64MAX < 2 ^ 512) :
    Highway.u64MAX * Highway.scaling_factor stakes.sum ≥ stakes.sum ∧
    Highway.u64MAX * (Highway.scaling_factor stakes.sum - 1) < stakes.sum ∧
    (∀ stake ∈ stakes,
      Highway.scale_stake stakes.sum stake = stake / Highway.scaling_factor stakes.sum) ∧
    (stakes.map (Highway.scale_stake stakes.sum)).sum ≤ Highway.u64MAX := by
  have hM0 : 0 < Highway.u64MAX := by norm_num [Highway.u64MAX]
  have hT1 : 1 ≤ stakes.sum := Nat.one_le_iff_ne_zero.mpr hsum
  obtain ⟨hup, hlow, hTc⟩ := ceil_div_facts stakes.sum Highway.u64MAX hM0 hT1
  have hsf : Highway.scaling_factor stakes.sum =
      (stakes.sum + Highway.u64MAX - 1) / Highway.u64MAX := rfl
  have hMlt : Highway.u64MAX < 2 ^ 64 := by norm_num [Highway.u64MAX]
  have hTc' : stakes.sum / Highway.scaling_factor stakes.sum ≤ Highway.u64MAX := by
    rw [hsf]
    exact hTc
  have heach : ∀ stake ∈ stakes,
      Highway.scale_stake stakes.sum stake = stake / Highway.scaling_factor stakes.sum := by
    intro stake hmem
    have h1 : stake ≤ stakes.sum := list_mem_le_sum hmem
    have h2 : stake / Highway.scaling_factor stakes.sum ≤
        stakes.sum / Highway.scaling_factor stakes.sum := Nat.div_le_div_right h1
    have h3 : stake / Highway.scaling_factor stakes.sum < 2 ^ 64 := by omega
    unfold Highway.scale_stake
    rw [Nat.mod_eq_of_lt h3]
  refine ⟨by rw [ge_iff_le, hsf]; exact hup, by rw [hsf]; exact hlow, heach, ?_⟩
  have hmapeq : stakes.map (Highway.scale_stake stakes.sum) =
      stakes.map (fun x => x / Highway.scaling_factor stakes.sum) :=
    List.map_congr_left heach
  rw [hmapeq, hsf]
  exact le_trans (list_sum_div_le stakes _) hTc

/-- C5 witness. -/
theorem c5_stake_scaling_witness :
    ([5, 7] : List Nat).sum ≠ 0 ∧ ([5, 7] : List Nat).sum + Highway.u64MAX < 2 ^ 512 ∧
    (Highway.u64MAX * Highway.scaling_factor ([5, 7] : List Nat).sum ≥ ([5, 7] : List Nat).sum ∧
     Highway.u64MAX * (Highway.scaling_factor ([5, 7] : List Nat).sum - 1) <
        ([5, 7] : List Nat).sum ∧
     (∀ stake ∈ ([5, 7] : List Nat),
        Highway.scale_stake ([5, 7] : List Nat).sum stake =
          stake / Highway.scaling_factor ([5, 7] : List Nat).sum) ∧
     (([5, 7] : List Nat).map (Highway.scale_stake ([5, 7] : List Nat).sum)).sum ≤
        Highway.u64MAX) :=
  ⟨by norm_num, by norm_num [Highway.u64MAX],
    c5_stake_scaling [5, 7] (by norm_num) (by norm_num [Highway.u64MAX])⟩

/-- A non-expired sample deploy shared by the block-proposer claims. -/
def sampleDeploy : BlockProposer.DeployType :=
  { isTransfer := true
    header := { timestamp := 0, ttl := 1000, gas_price := 1, dependencies := [] }
    size := 10
    payment_amount := 0 }

/-- A sample deploy config shared by the block-proposer claims. -/
def sampleConfig : BlockProposer.DeployConfig :=
  { max_ttl := 1000, max_dependencies := 10, block_max_transfer_count := 10
    block_max_deploy_count := 10, max_block_size := 1000, block_gas_limit := 1000 }

/-- A proposer state in which hash 1 sits in both `pending` and
`unhandled_finalized` (the claimed behaviour of removing the hash from
`pending` would be observable here). -/
def c3State : BlockProposer.Ready :=
  { sets :=
      { pending := [(1, sampleDeploy)]
        finalized_deploys := ∅
        finalization_queue := ∅
        next_finalized := 0 }
    unhandled_finalized := {1}
    deploy_config := sampleConfig
    request_queue := ∅ }

/-- C3 counterexample: buffering a non-expired deploy whose hash is in
`unhandled_finalized` stores the header and drops the hash from
`unhandled_finalized`, but does NOT remove the hash from `pending` as the
claim states — `add_deploy_or_transfer` returns from that branch without
touching `pending` (block_proposer.rs:314-321). -/
theorem c3_counterexample :
    sampleDeploy.header.expired 0 = false ∧
    1 ∈ c3State.unhandled_finalized ∧
    BlockProposer.pendingLookup 1
      (BlockProposer.add_deploy_or_transfer 0 1 sampleDeploy c3State).sets.pending =
      some sampleDeploy := by
  decide

/-- C3 amended: for every `BufferDeploy` event handled by a Ready proposer:
an expired deploy is rejected with the state unchanged; otherwise, if the
hash is in `unhandled_finalized`, the header is stored into
`finalized_deploys` and the hash is removed from `unhandled_finalized`,
with `pending` (and everything else) left unchanged; otherwise, a hash
already in `finalized_deploys` is rejected with the state unchanged;
otherwise the deploy is added to `pending`. -/
theorem c3_buffer_deploy (now hash : Nat) (dt : BlockProposer.DeployType)
    (s : BlockProposer.Ready) :
    (dt.header.expired now = true →
      BlockProposer.add_deploy_or_transfer now hash dt s = s) ∧
    (dt.header.expired now = false → hash ∈ s.unhandled_finalized →
      (BlockProposer.add_deploy_or_transfer now hash dt s).sets.finalized_deploys =
          s.sets.finalized_deploys.insert hash dt.take_header ∧
      (BlockProposer.add_deploy_or_transfer now hash dt s).unhandled_finalized =
          s.unhandled_finalized.erase hash ∧
      (BlockProposer.add_deploy_or_transfer now hash dt s).sets.pending =
          s.sets.pending ∧
      (BlockProposer.add_deploy_or_transfer now hash dt s).sets.finalization_queue =
          s.sets.finalization_queue ∧
      (BlockProposer.add_deploy_or_transfer now hash dt s).sets.next_finalized =
          s.sets.next_finalized ∧
      (BlockProposer.add_deploy_or_transfer now hash dt s).request_queue =
          s.request_queue) ∧
    (dt.header.expired now = false → hash ∉ s.unhandled_finalized →
      (s.sets.finalized_deploys.lookup hash).isSome = true →
      BlockProposer.add_deploy_or_transfer now hash dt s = s) ∧
    (dt.header.expired now = false → hash ∉ s.unhandled_finalized →
      s.sets.finalized_deploys.lookup hash = none →
      (BlockProposer.add_deploy_or_transfer now hash dt s).sets.pending =
          BlockProposer.pendingInsert hash dt s.sets.pending ∧
      (BlockProposer.add_deploy_or_transfer now hash dt s).sets.finalized_deploys =
          s.sets.finalized_deploys ∧
      (BlockProposer.add_deploy_or_transfer now hash dt s).unhandled_finalized =
          s.unhandled_finalized ∧
      (BlockProposer.add_deploy_or_transfer now hash dt s).sets.next_finalized =
          s.sets.next_finalized ∧
      (BlockProposer.add_deploy_or_transfer now hash dt s).request_queue =
          s.request_queue) := by
  refine ⟨fun hexp => ?_, fun hexp hmem => ?_, fun hexp hmem hfin => ?_,
    fun hexp hmem hfin => ?_⟩
  · unfold BlockProposer.add_deploy_or_transfer
    rw [if_pos hexp]
  · unfold BlockProposer.add_deploy_or_transfer
    rw [if_neg (by simp [hexp]), if_pos hmem]
    exact ⟨rfl, rfl, rfl, rfl, rfl, rfl⟩
  · unfold BlockProposer.add_deploy_or_transfer
    rw [if_neg (by simp [hexp]), if_neg hmem, if_pos hfin]
  · unfold BlockProposer.add_deploy_or_transfer
    rw [if_neg (by simp [hexp]), if_neg hmem, if_neg (by simp [hfin])]
    exact ⟨rfl, rfl, rfl, rfl, rfl⟩

/-- C3 witness. -/
theorem c3_buffer_deploy_witness :
    sampleDeploy.header.expired 0 = false ∧ (1 : Nat) ∈ c3State.unhandled_finalized ∧
    (BlockProposer.add_deploy_or_transfer 0 1 sampleDeploy c3State).sets.pending =
      c3State.sets.pending := by
  have hmain := c3_buffer_deploy 0 1 sampleDeploy c3State
  exact ⟨by decide, by decide, (hmain.2.1 (by decide) (by decide)).2.2.1⟩

section ProposeLemmas

open BlockProposer

/-- Once the running size is within `DEPLOY_APPROX_MIN_SIZE` of the block
size cap, the selection loop adds no further wasm deploy: the wasm
accumulator passes through unchanged. Helper for C8. -/
theorem proposeList_wasm_frozen (s : Ready) (cfg : DeployConfig) (ts : Nat)
    (past : List Nat) :
    ∀ (l : List (Nat × DeployType)) (transfers wasm_deploys : List Nat) (gas size : Nat),
      cfg.max_block_size ≤ size + DEPLOY_APPROX_MIN_SIZE →
      (proposeList s cfg ts past l transfers wasm_deploys gas size).2 = wasm_deploys := by
  intro l
  induction l with
  | nil =>
    intro transfers wasm_deploys gas size _
    rfl
  | cons hd rest ih =>
    intro transfers wasm_deploys gas size hsize
    obtain ⟨hash, dt⟩ := hd
    simp only [proposeList]
    split_ifs with h1 h2 h3 h4 h5 <;>
      first
        | rfl
        | exact ih _ _ _ _ hsize
        | (rcases h4 with ⟨hwasm, hnotmax⟩
           exact absurd (Or.inr ⟨hwasm, hsize⟩) hnotmax)

/-- Reference selection following the spec's words (§4.7 step 3): transfers
are chosen from `pending` in order, bounded only by
`block_max_transfer_count` and per-deploy validity — the running block size
and gas totals and their limits are never consulted. Compared against the
transfers component of `proposeList` for claim C10. -/
def transfersOnly (s : Ready) (cfg : DeployConfig) (ts : Nat) (past : List Nat) :
    List (Nat × DeployType) → List Nat → List Nat
  | [], acc => acc
  | (hash, dt) :: rest, acc =>
    if dt.is_transfer ∧ acc.length < cfg.block_max_transfer_count ∧
        is_deploy_valid s dt.header ts cfg past ∧ past.contains hash = false ∧
        (s.sets.finalized_deploys.lookup hash).isSome = false then
      transfersOnly s cfg ts past rest (acc ++ [hash])
    else transfersOnly s cfg ts past rest acc

/-- A full transfer accumulator never grows in the reference selection. -/
theorem transfersOnly_full (s : Ready) (cfg : DeployConfig) (ts : Nat) (past : List Nat) :
    ∀ (l : List (Nat × DeployType)) (acc : List Nat),
      cfg.block_max_transfer_count ≤ acc.length →
      transfersOnly s cfg ts past l acc = acc := by
  intro l
  induction l with
  | nil => intro acc _; rfl
  | cons hd rest ih =>
    intro acc hacc
    obtain ⟨hash, dt⟩ := hd
    simp only [transfersOnly]
    rw [if_neg (by rintro ⟨-, hlt, -⟩; omega)]
    exact ih acc hacc

/-- The transfers component of the selection loop coincides with the
size- and gas-oblivious reference selection. Helper for C10. -/
theorem proposeList_transfers_eq (s : Ready) (cfg : DeployConfig) (ts : Nat)
    (past : List Nat) :
    ∀ (l : List (Nat × DeployType)) (t w : List Nat) (g z : Nat),
      t.length ≤ cfg.block_max_transfer_count →
      (proposeList s cfg ts past l t w g z).1 = transfersOnly s cfg ts past l t := by
  intro l
  induction l with
  | nil =>
    intro t w g z _
    rfl
  | cons hd rest ih =>
    intro t w g z hlen
    obtain ⟨hash, dt⟩ := hd
    simp only [proposeList, transfersOnly]
    by_cases hbreak : ((w.length = cfg.block_max_deploy_count ∨
        (dt.is_wasm ∧ z + DEPLOY_APPROX_MIN_SIZE ≥ cfg.max_block_size)) ∧
        t.length = cfg.block_max_transfer_count)
    · obtain ⟨hbd, hbt⟩ := hbreak
      rw [if_pos ⟨hbd, hbt⟩, if_neg (by rintro ⟨-, hlt, -⟩; omega)]
      exact (transfersOnly_full s cfg ts past rest t (le_of_eq hbt.symm)).symm
    · rw [if_neg hbreak]
      by_cases hskip : (¬is_deploy_valid s dt.header ts cfg past ∨
          past.contains hash ∨ (s.sets.finalized_deploys.lookup hash).isSome)
      · rw [if_pos hskip, if_neg (by
          rintro ⟨-, -, hv', hnc', hns'⟩
          rcases hskip with h | h | h
          · exact h hv'
          · rw [hnc'] at h
            cases h
          · rw [hns'] at h
            cases h)]
        exact ih t w g z hlen
      · have hv : is_deploy_valid s dt.header ts cfg past = true := by
          by_contra hc
          exact hskip (Or.inl (by simpa using hc))
        have hnc : past.contains hash = false := by
          by_contra hc
          exact hskip (Or.inr (Or.inl (by simpa using hc)))
        have hns : (s.sets.finalized_deploys.lookup hash).isSome = false := by
          by_contra hc
          exact hskip (Or.inr (Or.inr (Option.isSome_iff_ne_none.mpr (by simpa using hc))))
        rw [if_neg hskip]
        by_cases htr : (dt.is_transfer ∧ ¬t.length = cfg.block_max_transfer_count)
        · obtain ⟨htr1, htr2⟩ := htr
          rw [if_pos ⟨htr1, htr2⟩, if_pos ⟨htr1, by omega, hv, hnc, hns⟩]
          exact ih (t ++ [hash]) w g z (by
            simp only [List.length_append, List.length_cons, List.length_nil]
            omega)
        · have hrneg : ¬(dt.is_transfer = true ∧ t.length < cfg.block_max_transfer_count ∧
              is_deploy_valid s dt.header ts cfg past = true ∧
              past.contains hash = false ∧
              (s.sets.finalized_deploys.lookup hash).isSome = false) := by
            rintro ⟨h1, h2, -⟩
            exact htr ⟨h1, by omega⟩
          rw [if_neg htr]
          conv_rhs => rw [if_neg hrneg]
          by_cases hwasm : (dt.is_wasm ∧ ¬(w.length = cfg.block_max_deploy_count ∨
              (dt.is_wasm ∧ z + DEPLOY_APPROX_MIN_SIZE ≥ cfg.max_block_size)))
          · rw [if_pos hwasm]
            split_ifs with hover
            · exact ih t w g z hlen
            · rcases hg : gasFromMotes dt.payment_amount dt.header.gas_price with _ | pg
              · exact ih t w g z hlen
              · dsimp only
                rcases ha : gasCheckedAdd g pg with _ | gt
                · exact ih t w g z hlen
                · dsimp only
                  split_ifs with hlim
                  · exact ih t w g z hlen
                  · exact ih t (w ++ [hash]) gt (z + dt.size) hlen
          · rw [if_neg hwasm]
            exact ih t w g z hlen

end ProposeLemmas

/-- C8: in `propose_proto_block`, once the running block size plus
`DEPLOY_APPROX_MIN_SIZE` (300 bytes) reaches `max_block_size`, no further
wasm deploy is added to the candidate block even if fewer than `max_deploys`
wasm deploys have been included; and the iteration stops early only when
both the transfer maximum and the wasm maximum (with the size condition
counting towards the wasm maximum) are reached — otherwise the loop
continues into the rest of `pending`. -/
theorem c8_wasm_size_break (s : BlockProposer.Ready) (cfg : BlockProposer.DeployConfig)
    (ts : Nat) (past : List Nat) (l : List (Nat × BlockProposer.DeployType))
    (transfers wasm_deploys : List Nat) (gas size : Nat)
    (hash : Nat) (dt : BlockProposer.DeployType) (rest : List (Nat × BlockProposer.DeployType))
    (t2 w2 : List Nat) (g2 z2 : Nat)
    (hsize : cfg.max_block_size ≤ size + BlockProposer.DEPLOY_APPROX_MIN_SIZE)
    (hnb : ¬((w2.length = cfg.block_max_deploy_count ∨
        (dt.is_wasm ∧ cfg.max_block_size ≤ z2 + BlockProposer.DEPLOY_APPROX_MIN_SIZE)) ∧
      t2.length = cfg.block_max_transfer_count)) :
    (BlockProposer.proposeList s cfg ts past l transfers wasm_deploys gas size).2 =
      wasm_deploys ∧
    ∃ t' w' g' z',
      BlockProposer.proposeList s cfg ts past ((hash, dt) :: rest) t2 w2 g2 z2 =
        BlockProposer.proposeList s cfg ts past rest t' w' g' z' := by
  constructor
  · exact proposeList_wasm_frozen s cfg ts past l transfers wasm_deploys gas size hsize
  · simp only [BlockProposer.proposeList]
    rw [if_neg (by
      intro hcontra
      exact hnb ⟨by simpa using hcontra.1, hcontra.2⟩)]
    split_ifs <;>
      first
      | exact ⟨t2, w2, g2, z2, rfl⟩
      | exact ⟨t2 ++ [hash], w2, g2, z2, rfl⟩
      | (rcases hg : BlockProposer.gasFromMotes dt.payment_amount dt.header.gas_price with
           _ | pg
         · exact ⟨t2, w2, g2, z2, rfl⟩
         · dsimp only
           rcases ha : BlockProposer.gasCheckedAdd g2 pg with _ | gt
           · exact ⟨t2, w2, g2, z2, rfl⟩
           · dsimp only
             split_ifs with hlim
             · exact ⟨t2, w2, g2, z2, rfl⟩
             · exact ⟨t2, w2 ++ [hash], gt, z2 + dt.size, rfl⟩)

/-- C9: across every event handled by a Ready proposer, `next_finalized`
never decreases; each single application of `handle_finalized_block` with an
applied height at most the current `next_finalized` increases
`next_finalized` by at most 1; and the invariant that every populated
`request_queue` key is strictly above `next_finalized` is preserved — so the
flush, which looks up only the single key equal to the new
`next_finalized`, never skips over a populated key. -/
theorem c9_next_finalized_monotone (now : Nat) (s : BlockProposer.Ready)
    (e : BlockProposer.Event) (height : Nat) (deploys : List Nat)
    (hInv : BlockProposer.rqInv s) (hle : height ≤ s.sets.next_finalized) :
    s.sets.next_finalized ≤ (BlockProposer.handle_event now s e).sets.next_finalized ∧
    BlockProposer.rqInv (BlockProposer.handle_event now s e) ∧
    s.sets.next_finalized ≤
      (BlockProposer.handle_finalized_block s height deploys).sets.next_finalized ∧
    (BlockProposer.handle_finalized_block s height deploys).sets.next_finalized ≤
      s.sets.next_finalized + 1 := by
  have hhfb := BlockProposer.handle_finalized_block_nf s height deploys
  refine ⟨?_, ?_, by omega, by omega⟩
  · cases e with
    | request r =>
      simp only [BlockProposer.handle_event]
      split_ifs <;> exact le_refl _
    | bufferDeploy hash dt =>
      simp only [BlockProposer.handle_event]
      rw [(BlockProposer.add_deploy_nf_rq now hash dt s).1]
    | prune => exact le_refl _
    | loaded => exact le_refl _
    | finalizedProtoBlock ds trs h =>
      simp only [BlockProposer.handle_event]
      split_ifs with hgt
      · exact le_refl _
      · have hnf := BlockProposer.handle_finalized_block_nf s h (ds ++ trs)
        have hInv1 := BlockProposer.handle_finalized_block_inv s h (ds ++ trs) hInv
          (by omega)
        obtain ⟨-, hm⟩ := BlockProposer.drainLoop_nf_inv
          s.sets.finalization_queue.keys.card
          (BlockProposer.handle_finalized_block s h (ds ++ trs)) h hInv1 (by omega)
        omega
  · cases e with
    | request r =>
      simp only [BlockProposer.handle_event]
      split_ifs with hgt
      · intro k hk
        rcases Finmap.mem_insert.mp hk with rfl | hk'
        · exact hgt
        · exact hInv k hk'
      · exact hInv
    | bufferDeploy hash dt =>
      intro k hk
      simp only [BlockProposer.handle_event] at hk ⊢
      rw [(BlockProposer.add_deploy_nf_rq now hash dt s).2] at hk
      rw [(BlockProposer.add_deploy_nf_rq now hash dt s).1]
      exact hInv k hk
    | prune => exact hInv
    | loaded => exact hInv
    | finalizedProtoBlock ds trs h =>
      simp only [BlockProposer.handle_event]
      split_ifs with hgt
      · exact hInv
      · have hInv1 := BlockProposer.handle_finalized_block_inv s h (ds ++ trs) hInv
          (by omega)
        exact (BlockProposer.drainLoop_nf_inv s.sets.finalization_queue.keys.card
          (BlockProposer.handle_finalized_block s h (ds ++ trs)) h hInv1 (by
            rw [BlockProposer.handle_finalized_block_nf]
            omega)).1

/-- C9 witness. -/
theorem c9_next_finalized_monotone_witness :
    BlockProposer.rqInv c3State ∧ (0 : Nat) ≤ c3State.sets.next_finalized ∧
    c3State.sets.next_finalized ≤
      (BlockProposer.handle_event 0 c3State .prune).sets.next_finalized ∧
    (BlockProposer.handle_finalized_block c3State 0 [5]).sets.next_finalized ≤
      c3State.sets.next_finalized + 1 := by
  have hInv : BlockProposer.rqInv c3State := by
    intro k hk
    simp only [c3State] at hk
    exact absurd hk Finmap.not_mem_empty
  have hmain := c9_next_finalized_monotone 0 c3State .prune 0 [5] hInv (Nat.zero_le _)
  exact ⟨hInv, Nat.zero_le _, hmain.1, hmain.2.2.2⟩

/-- C10: in `propose_proto_block`, including a transfer never changes the
running block-size total or the running gas total — an includable transfer
at the head of `pending` steps the loop with both totals unchanged, for
every value of those totals — and the transfers selected coincide with a
reference selection (`transfersOnly`) that is bounded only by
`block_max_transfer_count` and per-deploy validity and never consults
`max_block_size` or `block_gas_limit`. -/
theorem c10_transfers_oblivious (s : BlockProposer.Ready)
    (cfg : BlockProposer.DeployConfig) (ts : Nat) (past : List Nat)
    (l : List (Nat × BlockProposer.DeployType)) (t w : List Nat) (g z : Nat)
    (hash : Nat) (dt : BlockProposer.DeployType)
    (rest : List (Nat × BlockProposer.DeployType)) (t2 w2 : List Nat) (g2 z2 : Nat)
    (hlen : t.length ≤ cfg.block_max_transfer_count)
    (htr : dt.is_transfer = true)
    (hlen2 : ¬t2.length = cfg.block_max_transfer_count)
    (hv : BlockProposer.is_deploy_valid s dt.header ts cfg past = true)
    (hnc : past.contains hash = false)
    (hns : (s.sets.finalized_deploys.lookup hash).isSome = false) :
    (BlockProposer.proposeList s cfg ts past l t w g z).1 =
      transfersOnly s cfg ts past l t ∧
    BlockProposer.proposeList s cfg ts past ((hash, dt) :: rest) t2 w2 g2 z2 =
      BlockProposer.proposeList s cfg ts past rest (t2 ++ [hash]) w2 g2 z2 := by
  constructor
  · exact proposeList_transfers_eq s cfg ts past l t w g z hlen
  · simp only [BlockProposer.proposeList]
    rw [if_neg (fun hcon => hlen2 hcon.2),
      if_neg (by
        rintro (h | h | h)
        · exact h hv
        · rw [hnc] at h
          cases h
        · rw [hns] at h
          cases h),
      if_pos ⟨htr, hlen2⟩]

/-- C10 witness. -/
theorem c10_transfers_oblivious_witness :
    ([] : List Nat).length ≤ sampleConfig.block_max_transfer_count ∧
    sampleDeploy.is_transfer = true ∧
    ¬([] : List Nat).length = sampleConfig.block_max_transfer_count ∧
    BlockProposer.is_deploy_valid c3State sampleDeploy.header 0 sampleConfig [] = true ∧
    ([] : List Nat).contains 2 = false ∧
    (c3State.sets.finalized_deploys.lookup 2).isSome = false ∧
    BlockProposer.proposeList c3State sampleConfig 0 [] [(2, sampleDeploy)] [] [] 5 7 =
      BlockProposer.proposeList c3State sampleConfig 0 [] [] ([] ++ [2]) [] 5 7 := by
  have hmain := c10_transfers_oblivious c3State sampleConfig 0 [] [] [] [] 0 0
    2 sampleDeploy [] [] [] 5 7 (by decide) (by decide) (by decide) (by decide)
    (by decide) (by decide)
  exact ⟨by decide, by decide, by decide, by decide, by decide, by decide, hmain.2⟩

/-- C8 witness. -/
theorem c8_wasm_size_break_witness :
    sampleConfig.max_block_size ≤ 700 + BlockProposer.DEPLOY_APPROX_MIN_SIZE ∧
    ¬((([] : List Nat).length = sampleConfig.block_max_deploy_count ∨
        (sampleDeploy.is_wasm ∧
          sampleConfig.max_block_size ≤ 0 + BlockProposer.DEPLOY_APPROX_MIN_SIZE)) ∧
      ([] : List Nat).length = sampleConfig.block_max_transfer_count) ∧
    (BlockProposer.proposeList c3State sampleConfig 0 [] [(2, sampleDeploy)] [] [] 0 700).2 =
      [] := by
  have hmain := c8_wasm_size_break c3State sampleConfig 0 [] [(2, sampleDeploy)]
    [] [] 0 700 2 sampleDeploy [] [] [] 0 0 (by decide) (by decide)
  exact ⟨by decide, by decide, hmain.1⟩

/-- C6: the replies to a `LatestStateRequest` follow the observation table:
per validator index, equal observations produce nothing; ours `None` vs
theirs `Correct(h')` requests `Unit(h')`; ours `Correct(h)` vs theirs `None`
sends our unit `h`; ours `Correct(h)` vs theirs `Correct(h')` sends our unit
if `h'` is in our state and seen correct by our panorama, requests `h'` if
we lack it, and otherwise sends nothing; theirs `Faulty` (ours not)
requests `Evidence(vid)`; ours `Faulty` (theirs not) sends our evidence. -/
theorem c6_latest_state_table (state : Highway.StateView) (vid : Nat)
    (our_panorama their_panorama : List Highway.Observation) (h h' w e : Nat)
    (hne : h ≠ h') (hw : state.wire_unit h = some w)
    (hev : state.maybe_evidence vid = some e) :
    Highway.latest_state_replies state our_panorama their_panorama =
      ((our_panorama.zip their_panorama).enum.map
        (fun p => Highway.create_message state p.1 p.2.1 p.2.2)).reduceOption ∧
    (∀ obs : Highway.Observation, Highway.create_message state vid obs obs = none) ∧
    Highway.create_message state vid .nothing (.correct h') =
      some (.requestDependency (.unit h')) ∧
    Highway.create_message state vid (.correct h) .nothing =
      some (.newVertex (.unit w)) ∧
    (state.has_unit h' = true → state.sees_correct h' = true →
      Highway.create_message state vid (.correct h) (.correct h') =
        some (.newVertex (.unit w))) ∧
    (state.has_unit h' = false →
      Highway.create_message state vid (.correct h) (.correct h') =
        some (.requestDependency (.unit h'))) ∧
    (state.has_unit h' = true → state.sees_correct h' = false →
      Highway.create_message state vid (.correct h) (.correct h') = none) ∧
    (∀ obs0 : Highway.Observation, obs0 ≠ .faulty →
      Highway.create_message state vid obs0 .faulty =
        some (.requestDependency (.evidence vid))) ∧
    (∀ obs1 : Highway.Observation, obs1 ≠ .faulty →
      Highway.create_message state vid .faulty obs1 =
        some (.newVertex (.evidence e))) := by
  have hcc : (Highway.Observation.correct h) ≠ (Highway.Observation.correct h') := by
    simpa using hne
  refine ⟨rfl, ?_, ?_, ?_, ?_, ?_, ?_, ?_, ?_⟩
  · intro obs
    unfold Highway.create_message
    rw [if_pos rfl]
  · unfold Highway.create_message
    simp
  · unfold Highway.create_message
    simp [hw]
  · intro h1 h2
    unfold Highway.create_message
    rw [if_neg hcc]
    simp [h1, h2, hw]
  · intro h1
    unfold Highway.create_message
    rw [if_neg hcc]
    simp [h1]
  · intro h1 h2
    unfold Highway.create_message
    rw [if_neg hcc]
    simp [h1, h2]
  · intro obs0 hobs
    unfold Highway.create_message
    cases obs0 with
    | nothing => simp
    | correct x => simp
    | faulty => exact absurd rfl hobs
  · intro obs1 hobs
    unfold Highway.create_message
    cases obs1 with
    | nothing => simp [hev]
    | correct x => simp [hev]
    | faulty => exact absurd rfl hobs

/-- A concrete state view used by the C6 witness. -/
def sampleStateView : Highway.StateView :=
  { has_unit := fun x => x = 5
    sees_correct := fun x => x = 5
    wire_unit := fun x => if x ≤ 10 then some (x + 100) else none
    maybe_evidence := fun v => some (v + 1) }

/-- C6 witness. -/
theorem c6_latest_state_table_witness :
    (3 : Nat) ≠ 5 ∧ sampleStateView.wire_unit 3 = some 103 ∧
    sampleStateView.maybe_evidence 2 = some 3 ∧
    Highway.create_message sampleStateView 2 (.correct 3) .nothing =
      some (.newVertex (.unit 103)) := by
  have hmain := c6_latest_state_table sampleStateView 2 [] [] 3 5 103 3
    (by decide) (by decide) (by decide)
  exact ⟨by decide, by decide, by decide, hmain.2.2.2.1⟩

/-- C7: for a pre-validated `NewVertex` carrying a timestamp (and not
silently dropped as coming from a faulty creator): a timestamp strictly
beyond `now + pending_vertex_timeout` is dropped with no outcomes; a
timestamp in `(now, now + pending_vertex_timeout]` is stored for later with
a release timer scheduled at that timestamp; otherwise the vertex is
enqueued via the synchronizer; in particular a timestamp of exactly
`now + pending_vertex_timeout` is never dropped as too far in the future. -/
theorem c7_future_vertex_gate (is_faulty is_dep : Bool) (ts now timeout : Nat)
    (hnf : ¬(is_faulty = true ∧ is_dep = false)) :
    (now + timeout < ts →
      Highway.new_vertex_disposition is_faulty is_dep (some ts) now timeout =
        .dropFuture ∧
      Highway.disposition_outcomes
        (Highway.new_vertex_disposition is_faulty is_dep (some ts) now timeout) = []) ∧
    (now < ts → ts ≤ now + timeout →
      Highway.new_vertex_disposition is_faulty is_dep (some ts) now timeout =
        .storeForLater ts ∧
      Highway.disposition_outcomes
        (Highway.new_vertex_disposition is_faulty is_dep (some ts) now timeout) =
        [.scheduleTimer ts Highway.TIMER_ID_VERTEX_WITH_FUTURE_TIMESTAMP]) ∧
    (ts ≤ now →
      Highway.new_vertex_disposition is_faulty is_dep (some ts) now timeout = .enqueue) ∧
    Highway.new_vertex_disposition is_faulty is_dep (some (now + timeout)) now timeout ≠
      .dropFuture := by
  have hguard : (is_faulty && !is_dep) = false := by
    cases is_faulty <;> cases is_dep <;> simp_all
  unfold Highway.new_vertex_disposition
  rw [hguard]
  simp only [Bool.false_eq_true, if_false]
  refine ⟨fun h => ?_, fun h1 h2 => ?_, fun h => ?_, ?_⟩
  · rw [if_pos h]
    exact ⟨rfl, rfl⟩
  · rw [if_neg (by omega), if_pos h1]
    exact ⟨rfl, rfl⟩
  · rw [if_neg (by omega), if_neg (by omega)]
  · rw [if_neg (by omega)]
    split <;> simp

/-- C7 witness. -/
theorem c7_future_vertex_gate_witness :
    ¬((false : Bool) = true ∧ (false : Bool) = false) ∧
    ((10 + 5 < 16 →
      Highway.new_vertex_disposition false false (some 16) 10 5 = .dropFuture ∧
      Highway.disposition_outcomes
        (Highway.new_vertex_disposition false false (some 16) 10 5) = []) ∧
     (10 < 16 → 16 ≤ 10 + 5 →
      Highway.new_vertex_disposition false false (some 16) 10 5 = .storeForLater 16 ∧
      Highway.disposition_outcomes
        (Highway.new_vertex_disposition false false (some 16) 10 5) =
        [.scheduleTimer 16 Highway.TIMER_ID_VERTEX_WITH_FUTURE_TIMESTAMP]) ∧
     (16 ≤ 10 →
      Highway.new_vertex_disposition false false (some 16) 10 5 = .enqueue) ∧
     Highway.new_vertex_disposition false false (some (10 + 5)) 10 5 ≠ .dropFuture) :=
  ⟨by decide, c7_future_vertex_gate false false 16 10 5 (by decide)⟩

/-- A proposer state whose finalization queue is dirty: it already holds an
entry under key 1, which is `height - 1` for the deliverable height 2. -/
def c1DirtyState : BlockProposer.Ready :=
  { sets :=
      { pending := [(5, sampleDeploy)]
        finalized_deploys := ∅
        finalization_queue := (∅ : Finmap (fun _ : Nat => List Nat)).insert 1 [5]
        next_finalized := 1 }
    unhandled_finalized := ∅
    deploy_config := sampleConfig
    request_queue := ∅ }

/-- C1 counterexample: with an entry already queued under key 1, delivering
the finalizations of heights 1..2 in increasing order drains the queued
deploys into `finalized_deploys` (emptying `pending`), while delivering
height 2 first overwrites the queued entry (handle_event inserts at key
`height - 1` unconditionally) and hash 5 stays in `pending` — so delivery
order is observable, contradicting the claim's unconditional
order-independence. -/
theorem c1_counterexample :
    List.Perm [((1 : Nat), ([] : List Nat), ([] : List Nat)), (2, [], [])]
      [(2, [], []), (1, [], [])] ∧
    (BlockProposer.deliverSeq 0 c1DirtyState
        [(1, [], []), (2, [], [])]).sets.pending ≠
      (BlockProposer.deliverSeq 0 c1DirtyState
        [(2, [], []), (1, [], [])]).sets.pending := by
  decide

/-- C1 amended: for every `FinalizedProtoBlock` event delivered to a Ready
block proposer: if the height is greater than `next_finalized`, its deploys
are stored in `finalization_queue` under key `height - 1` and the state is
otherwise unchanged; if the height is at most `next_finalized`, the block is
applied and then all consecutively queued entries are drained (the fold of
the consecutive chain, with the consumed run of keys erased); and — provided
the initial `finalization_queue` holds no entry under key `height - 1` for
any of the delivered heights — delivering the finalizations of heights
`h..h+k` in any order yields the same final `pending`, `finalized_deploys`,
`unhandled_finalized` and `next_finalized` as delivering them in increasing
height order. -/
theorem c1_finalization_ordering (now : Nat) (s : BlockProposer.Ready)
    (ds ts : List Nat) (height h k : Nat) (d : Nat → List Nat × List Nat)
    (L : List (Nat × List Nat × List Nat))
    (hperm : L.Perm (BlockProposer.bandList h k d))
    (hclean : ∀ p ∈ BlockProposer.bandList h k d, 1 ≤ p.1 →
      (BlockProposer.coreOf s).fqueue.lookup (p.1 - 1) = none) :
    (height > s.sets.next_finalized →
      BlockProposer.handle_event now s (.finalizedProtoBlock ds ts height) =
        { s with sets := { s.sets with
            finalization_queue :=
              s.sets.finalization_queue.insert (height - 1) (ds ++ ts) } }) ∧
    (height ≤ s.sets.next_finalized →
      BlockProposer.coreOf
          (BlockProposer.handle_event now s (.finalizedProtoBlock ds ts height)) =
        { BlockProposer.applyList
            (BlockProposer.coreApply (BlockProposer.coreOf s) height (ds ++ ts))
            (BlockProposer.chainApps (BlockProposer.coreOf s).fqueue.keys.card
              (BlockProposer.coreOf s).fqueue height) with
          fqueue := BlockProposer.eraseRun (BlockProposer.coreOf s).fqueue height
            (BlockProposer.chainApps (BlockProposer.coreOf s).fqueue.keys.card
              (BlockProposer.coreOf s).fqueue height).length }) ∧
    ((BlockProposer.deliverSeq now s L).sets.pending =
        (BlockProposer.deliverSeq now s (BlockProposer.bandList h k d)).sets.pending ∧
      (BlockProposer.deliverSeq now s L).sets.finalized_deploys =
        (BlockProposer.deliverSeq now s
          (BlockProposer.bandList h k d)).sets.finalized_deploys ∧
      (BlockProposer.deliverSeq now s L).unhandled_finalized =
        (BlockProposer.deliverSeq now s
          (BlockProposer.bandList h k d)).unhandled_finalized ∧
      (BlockProposer.deliverSeq now s L).sets.next_finalized =
        (BlockProposer.deliverSeq now s
          (BlockProposer.bandList h k d)).sets.next_finalized) := by
  refine ⟨?_, ?_, ?_⟩
  · intro hgt
    simp only [BlockProposer.handle_event]
    rw [if_pos hgt]
  · intro hle
    rw [BlockProposer.coreOf_handle_event_fin]
    exact BlockProposer.coreDeliver_applied_char (BlockProposer.coreOf s)
      (height, ds, ts) hle
  · have hb : (BlockProposer.bandList h k d).map Prod.fst =
        (List.range (k + 1)).map (fun i => h + i) := by
      simp only [BlockProposer.bandList, List.map_map]
      rfl
    have hnd : ((BlockProposer.bandList h k d).map Prod.fst).Nodup := by
      rw [hb]
      exact List.Nodup.map (fun a b hab => by omega) (List.nodup_range _)
    have hndL : (L.map Prod.fst).Nodup :=
      ((hperm.map Prod.fst).nodup_iff).mpr hnd
    have hgL : ∀ p ∈ L, 1 ≤ p.1 →
        (BlockProposer.coreOf s).fqueue.lookup (p.1 - 1) = none :=
      fun p hp => hclean p (hperm.mem_iff.mp hp)
    have hcore : BlockProposer.coreOf (BlockProposer.deliverSeq now s L) =
        BlockProposer.coreOf
          (BlockProposer.deliverSeq now s (BlockProposer.bandList h k d)) := by
      rw [BlockProposer.coreOf_deliverSeq, BlockProposer.coreOf_deliverSeq]
      exact BlockProposer.coreDeliverSeq_perm hperm (BlockProposer.coreOf s) hndL hgL
    exact ⟨congrArg BlockProposer.CoreView.pending hcore,
      congrArg BlockProposer.CoreView.finalized hcore,
      congrArg BlockProposer.CoreView.unhandled hcore,
      congrArg BlockProposer.CoreView.nf hcore⟩

/-- C1 witness. -/
theorem c1_finalization_ordering_witness :
    List.Perm [((2 : Nat), ([] : List Nat), ([] : List Nat)), (1, [], [])]
      (BlockProposer.bandList 1 1 (fun _ => ([], []))) ∧
    (∀ p ∈ BlockProposer.bandList 1 1
        (fun _ => (([] : List Nat), ([] : List Nat))),
      1 ≤ p.1 →
        (BlockProposer.coreOf c3State).fqueue.lookup (p.1 - 1) = none) ∧
    (BlockProposer.deliverSeq 0 c3State [(2, [], []), (1, [], [])]).sets.pending =
      (BlockProposer.deliverSeq 0 c3State
        (BlockProposer.bandList 1 1 (fun _ => ([], [])))).sets.pending :=
  ⟨by decide, by decide,
    (c1_finalization_ordering 0 c3State [] [] 2 1 1 (fun _ => ([], []))
      [(2, [], []), (1, [], [])] (by decide) (by decide)).2.2.1⟩
